import Mathlib

/-!
# hosts-file updater: embedding of `updater.go` and `ms-edge-list.go`

Go strings are modelled by the list of their code points (`GoString`); the texts the
program handles are UTF-8, for which byte-wise comparison and code-point-wise comparison
agree.  The global `hosts` map of type `map[string]struct{}` is a finite set of strings.
Messages printed to standard output are not part of the state.
-/

namespace HostsFile

/-- A Go `string`, as its sequence of code points. -/
abbrev GoString := List Char

/-- The global `var hosts = make(map[string]struct{})`: a set of keys. -/
abbrev Hosts := Finset GoString

/-! ## Library functions used by the program -/

/-- The function `isSpace` of package `bufio` (the same set as `unicode.IsSpace`). -/
def isSpace (r : Char) : Bool :=
  let n := r.toNat
  if n ≤ 0xFF then
    n = 0x20 || n = 0x09 || n = 0x0A || n = 0x0B || n = 0x0C || n = 0x0D || n = 0x85 || n = 0xA0
  else if 0x2000 ≤ n && n ≤ 0x200A then true
  else n = 0x1680 || n = 0x2028 || n = 0x2029 || n = 0x202F || n = 0x205F || n = 0x3000

/-- The helper `dropCR` of `bufio.ScanLines`: drop one trailing carriage return. -/
def dropCR (data : GoString) : GoString :=
  if data.getLast? = some '\r' then data.dropLast else data

/-- The pieces `bufio.ScanLines` cuts a text into, before `dropCR`: each piece ends at a
newline; a final piece without newline is a piece when it is non-empty.  `cur` holds the
current piece, reversed. -/
def splitLines (cur : GoString) : GoString → List GoString
  | [] => if cur = [] then [] else [cur.reverse]
  | c :: cs => if c = '\n' then cur.reverse :: splitLines [] cs else splitLines (c :: cur) cs

/-- The tokens a `bufio.Scanner` with `bufio.ScanWords` yields on a line: the maximal runs
of non-space code points.  `cur` holds the current run, reversed. -/
def splitWords (cur : GoString) : GoString → List GoString
  | [] => if cur = [] then [] else [cur.reverse]
  | c :: cs =>
    if isSpace c then
      (if cur = [] then splitWords [] cs else cur.reverse :: splitWords [] cs)
    else splitWords (c :: cur) cs

/-- All tokens of `fieldScanner` on one line. -/
def scanWords (line : GoString) : List GoString := splitWords [] line

/-- The constant `bufio.MaxScanTokenSize`. -/
def maxScanTokenSize : Nat := 64 * 1024

/-- Length in bytes of the UTF-8 encoding. -/
def byteLen (s : GoString) : Nat := (s.map Char.utf8Size).sum

/-- What an `io.Reader` delivers: the text, and the error other than `io.EOF` that ends
the stream, if any. -/
structure Reader where
  text : GoString
  fault : Option GoString

/-- The error `bufio.ErrTooLong`. -/
def errTooLong : GoString := "bufio.Scanner: token too long".toList

/-- Drain a `bufio.Scanner` with the default split function `bufio.ScanLines`: the lines
`scanner.Text()` takes in turn, and the final `scanner.Err()`.  A piece that does not fit
the buffer of `maxScanTokenSize` bytes together with its newline stops the scan with
`bufio.ErrTooLong`; a failing read ends it with that error after the text read so far. -/
def scanLines (contents : Reader) : List GoString × Option GoString :=
  let pieces := splitLines [] contents.text
  let fit := pieces.takeWhile (fun p => byteLen p < maxScanTokenSize)
  (fit.map dropCR, if fit.length < pieces.length then some errTooLong else contents.fault)

/-- The regular expression `addrRE = regexp.MustCompile("^[0-9.]*$")`, as `addrRE.Match`. -/
def addrRE (host : GoString) : Bool :=
  host.all (fun c => ('0' ≤ c && c ≤ '9') || c = '.')

/-- The function `strings.HasSuffix`. -/
def hasSuffix (s suffix : GoString) : Bool := suffix.isSuffixOf s

/-- The function `strings.HasPrefix`. -/
def hasPrefix (s pre : GoString) : Bool := pre.isPrefixOf s

/-! ## `processHostsFile` (updater.go, lines 54-88) -/

/-- The inner loop `for fieldScanner.Scan()` (lines 64-78) over the remaining fields of a
line; `none` is the run-time panic of `host[0]` on an empty string. -/
def scanFields : List GoString → Hosts × Nat → Option (Hosts × Nat)
  | [], st => some st
  | [] :: _, _ => none
  | (c :: cs) :: rest, (hosts, foundHosts) =>
    if c = '#' then some (hosts, foundHosts)
    else if addrRE (c :: cs) then scanFields rest (hosts, foundHosts)
    else if hasSuffix (c :: cs) ".001com".toList then scanFields rest (hosts, foundHosts)
    else scanFields rest (insert (c :: cs) hosts, foundHosts + 1)

/-- One iteration of the outer loop `for scanner.Scan()` (lines 57-79). -/
def processLine (line : GoString) (st : Hosts × Nat) : Option (Hosts × Nat) :=
  match scanWords line with
  | [] => some st
  | first :: rest => if first ≠ "0.0.0.0".toList then some st else scanFields rest st

/-- The outer loop over the scanned lines. -/
def processLines : List GoString → Hosts × Nat → Option (Hosts × Nat)
  | [], st => some st
  | line :: rest, st =>
    match processLine line st with
    | none => none
    | some st' => processLines rest st'

/-- The error of line 84. -/
def errNoHosts : GoString := "did not find any hosts".toList

/-- The function `processHostsFile`: from the reader and the set `hosts` before the call to
the set after it and the returned error (`none` for `nil`); the outer `none` is a panic.
`source` only labels the printed messages.  The counter `foundHosts` is a natural number:
the `int` of the program cannot wrap on a text of fewer than `2 ^ 63` fields. -/
def processHostsFile (contents : Reader) (_source : GoString) (hosts : Hosts) :
    Option (Hosts × Option GoString) :=
  let scanned := scanLines contents
  match processLines scanned.1 (hosts, 0) with
  | none => none
  | some (hosts', foundHosts) =>
    match scanned.2 with
    | some err => some (hosts', some ("error reading hosts: ".toList ++ err))
    | none =>
      if foundHosts = 0 then some (hosts', some errNoHosts)
      else some (hosts', none)

/-! ## The comparator and the sort of `writeHosts` (updater.go, lines 110-130) -/

/-- The function `strings.Split(s, ".")`: the labels between the dots; never empty, and
`[""]` for the empty string. -/
def splitDots : GoString → List GoString
  | [] => [[]]
  | c :: cs =>
    if c = '.' then [] :: splitDots cs
    else
      match splitDots cs with
      | [] => [[c]]
      | label :: labels => (c :: label) :: labels

/-- The function `strings.Compare`: `-1`, `0` or `+1` as `a` is smaller than, equal to or
greater than `b` in the lexicographic order of their bytes. -/
def stringsCompare : GoString → GoString → Int
  | [], [] => 0
  | [], _ :: _ => -1
  | _ :: _, [] => 1
  | a :: as, b :: bs => if a < b then -1 else if b < a then 1 else stringsCompare as bs

/-- The loop of the less function (lines 121-129), on the index pair
`(leftIndex, rightIndex)`; the indices read are below the lengths. -/
def lessLoop (left right : List GoString) : Nat → Nat → Bool
  | 0, _ => true
  | _ + 1, 0 => false
  | leftIndex + 1, rightIndex + 1 =>
    let comp := stringsCompare (left.getD leftIndex []) (right.getD rightIndex [])
    if comp ≠ 0 then decide (comp < 0) else lessLoop left right leftIndex rightIndex

/-- The less function handed to `sort.Slice` (lines 116-130), on the two strings
`sortedHosts[i]` and `sortedHosts[j]`. -/
def less (hostI hostJ : GoString) : Bool :=
  let left := splitDots hostI
  let right := splitDots hostJ
  lessLoop left right left.length right.length

/-- The inner loop of insertion sort, `for j := i; j > a && less(j, j-1); j--` with a swap:
`x` moves left past every element it is less than.  The part of the slice to the left of
`x` is given nearest element first. -/
def siftLeft {α : Type} (lt : α → α → Bool) (x : α) : List α → List α
  | [] => [x]
  | y :: before => if lt x y then y :: siftLeft lt x before else x :: y :: before

/-- Insertion sort: `done` is the sorted part, nearest element first. -/
def insertionSort {α : Type} (lt : α → α → Bool) : List α → List α → List α
  | done, [] => done.reverse
  | done, x :: rest => insertionSort lt (siftLeft lt x done) rest

/-- The function `sort.Slice`, as the insertion sort the library runs on short slices.  On
longer slices the library switches to other in-place strategies that return a sorted
permutation as well; `sortSlice_unique` shows there is only one for the comparator of
`writeHosts`. -/
def sortSlice {α : Type} (lt : α → α → Bool) (data : List α) : List α :=
  insertionSort lt [] data

/-- The slice `sortedHosts` after line 130; `keys` is the order in which
`for host := range hosts` (lines 112-114) enumerated the map. -/
def sortedHosts (keys : List GoString) : List GoString := sortSlice less keys

/-- One rule line, `fmt.Sprintf("0.0.0.0 %s\n", host)` (line 143). -/
def ruleLine (host : GoString) : GoString := "0.0.0.0 ".toList ++ host ++ "\n".toList

/-! ## The environment of a run -/

/-- An HTTP response as far as the program can look at it: status code and body. -/
structure Response where
  statusCode : Nat
  body : Reader

/-- The outcome of `os.Open("extras.txt")`. -/
inductive OpenResult where
  | opened (contents : Reader)
  | notExist (err : GoString)
  | failed (err : GoString)

/-- The calls that reach outside the process. -/
inductive Event where
  | httpGet (url : GoString)
  | openFile (name : GoString)
  | createFile (name : GoString)
  deriving DecidableEq

/-- Everything a run reads from outside: the two input files, the answers of `http.Get`
(by number of earlier requests and URL; `Except.error` is a non-nil `err`), the result of
decoding a body as the block list (the `url` of each site), whether `os.Create` and the
writes to the file fail (`writeFault`: the file takes that many code points, then the
error), the order in which `range hosts` enumerates a map, and the formatted time. -/
structure Env where
  sourcesTxt : Except GoString Reader
  extrasTxt : OpenResult
  httpGet : Nat → GoString → Except GoString Response
  jsonDecode : Reader → Except GoString (List GoString)
  createFault : Option GoString
  writeFault : Option (Nat × GoString)
  rangeHosts : Hosts → List GoString
  now : GoString

/-- The state a run changes: the global `hosts`, the file `hosts.txt` (`none` when it does
not exist) and the calls made so far, oldest first. -/
structure State where
  hosts : Hosts
  hostsTxt : Option GoString
  trace : List Event
  deriving DecidableEq

/-- Number of `http.Get` calls in a trace. -/
def requests (trace : List Event) : Nat :=
  (trace.filter (fun e => match e with | Event.httpGet _ => true | _ => false)).length

/-! ## `processSource` (updater.go, lines 90-101) -/

/-- The function `processSource`; the status code of the response is not read. -/
def processSource (env : Env) (url : GoString) (st : State) :
    Option (State × Option GoString) :=
  let st₁ : State := { st with trace := st.trace ++ [Event.httpGet url] }
  match env.httpGet (requests st.trace) url with
  | Except.error err =>
    some (st₁, some ("error fetching ".toList ++ url ++ ": ".toList ++ err))
  | Except.ok resp =>
    match processHostsFile resp.body url st.hosts with
    | none => none
    | some (hosts', some err) =>
      some ({ st₁ with hosts := hosts' },
        some ("error parsing ".toList ++ url ++ ": ".toList ++ err))
    | some (hosts', none) => some ({ st₁ with hosts := hosts' }, none)

/-! ## `addMSEdgeBlockList` (ms-edge-list.go) -/

/-- The URL constant of `addMSEdgeBlockList`. -/
def msEdgeURL : GoString := "https://edge.microsoft.com/abusiveadblocking/api/v1/blocklist".toList

/-- The loop of lines 25-28 over the decoded `blocklist.Sites`, by their `Url`. -/
def addSites : List GoString → Hosts → Hosts
  | [], hosts => hosts
  | url :: rest, hosts => addSites rest (insert ("www.".toList ++ url) (insert url hosts))

/-- The function `addMSEdgeBlockList`. -/
def addMSEdgeBlockList (env : Env) (st : State) : State × Option GoString :=
  let st₁ : State := { st with trace := st.trace ++ [Event.httpGet msEdgeURL] }
  match env.httpGet (requests st.trace) msEdgeURL with
  | Except.error err =>
    (st₁, some ("error fetching ".toList ++ msEdgeURL ++ ": ".toList ++ err))
  | Except.ok resp =>
    match env.jsonDecode resp.body with
    | Except.error err => (st₁, some err)
    | Except.ok sites => ({ st₁ with hosts := addSites sites st.hosts }, none)

/-! ## `writeHosts` (updater.go, lines 103-150) -/

/-- The text of the template `preamble` after the last action. -/
def preambleTail : String :=
    "\n" ++
    "#\n" ++
    "# ===============================================================\n" ++
    "\n" ++
    "127.0.0.1 localhost\n" ++
    "127.0.0.1 localhost.localdomain\n" ++
    "127.0.0.1 local\n" ++
    "255.255.255.255 broadcasthost\n" ++
    "::1 localhost\n" ++
    "::1 ip6-localhost\n" ++
    "::1 ip6-loopback\n" ++
    "fe80::1%lo0 localhost\n" ++
    "ff00::0 ip6-localnet\n" ++
    "ff00::0 ip6-mcastprefix\n" ++
    "ff02::1 ip6-allnodes\n" ++
    "ff02::2 ip6-allrouters\n" ++
    "ff02::3 ip6-allhosts\n" ++
    "0.0.0.0 0.0.0.0\n" ++
    "\n" ++
    "# End preamble\n" ++
    "\n"

/-- Executing the template `preamble` on `date`, `count` and `sources`: `{{- range` and
`{{- end` trim the white space before them, so each source is rendered as a new line
`# source`. -/
def renderPreamble (date : GoString) (count : Nat) (sources : List GoString) : GoString :=
  "\n# Amalgamated hosts file\n#\n# This is a hosts file generated from various sources.\n#\n# Date: ".toList
    ++ date ++ "\n# Number of unique domains: ".toList ++ (Nat.repr count).toList
    ++ "\n#\n# Included hosts lists:".toList
    ++ sources.flatMap (fun source => "\n# ".toList ++ source)
    ++ preambleTail.toList

/-- One write to the open file `hosts.txt`, whose content so far is `file`; `writeFault` is
the field of the environment. -/
def fileWrite (writeFault : Option (Nat × GoString)) (file data : GoString) :
    GoString × Option GoString :=
  match writeFault with
  | none => (file ++ data, none)
  | some (room, err) =>
    if (file ++ data).length ≤ room then (file ++ data, none)
    else ((file ++ data).take room, some err)

/-- The loop of lines 142-147 that writes the rule lines. -/
def writeRules (writeFault : Option (Nat × GoString)) :
    List GoString → GoString → GoString × Option GoString
  | [], file => (file, none)
  | host :: rest, file =>
    match fileWrite writeFault file (ruleLine host) with
    | (file', some err) =>
      (file', some ("failed to write ".toList ++ host ++ " to hosts file: ".toList ++ err))
    | (file', none) => writeRules writeFault rest file'

/-- The function `writeHosts`. -/
def writeHosts (env : Env) (sources : List GoString) (st : State) :
    State × Option GoString :=
  let st₁ : State := { st with trace := st.trace ++ [Event.createFile "hosts.txt".toList] }
  match env.createFault with
  | some err => (st₁, some ("failed to open output hosts.txt: ".toList ++ err))
  | none =>
    let sorted := sortedHosts (env.rangeHosts st.hosts)
    match fileWrite env.writeFault [] (renderPreamble env.now sorted.length sources) with
    | (file, some err) =>
      ({ st₁ with hostsTxt := some file }, some ("failed to write preamble: ".toList ++ err))
    | (file, none) =>
      match writeRules env.writeFault sorted file with
      | (file', some err) => ({ st₁ with hostsTxt := some file' }, some err)
      | (file', none) => ({ st₁ with hostsTxt := some file' }, none)

/-! ## `run` (updater.go, lines 152-193) -/

/-- The function `strings.TrimSpace`. -/
def trimSpace (s : GoString) : GoString :=
  ((s.dropWhile isSpace).reverse.dropWhile isSpace).reverse

/-- The function `sort.Strings`. -/
def sortStrings (data : List GoString) : List GoString :=
  sortSlice (fun a b => decide (stringsCompare a b < 0)) data

/-- The loop of lines 160-169 over the lines of `sources.txt`; `sources` is the slice of
the same name.  The third component is the error `run` returns from inside the loop. -/
def runSources (env : Env) :
    List GoString → State × List GoString → Option (State × List GoString × Option GoString)
  | [], (st, sources) => some (st, sources, none)
  | text :: rest, (st, sources) =>
    let line := trimSpace text
    if line.length > 0 && !hasPrefix line "#".toList then
      match processSource env line st with
      | none => none
      | some (st', some err) =>
        some (st', sources,
          some ("error updating source ".toList ++ line ++ ": ".toList ++ err))
      | some (st', none) => runSources env rest (st', sources ++ [line])
    else runSources env rest (st, sources)

/-- Lines 171-180: the optional file `extras.txt`. -/
def readExtras (env : Env) (st : State) : Option (State × Option GoString) :=
  let st₁ : State := { st with trace := st.trace ++ [Event.openFile "extras.txt".toList] }
  match env.extrasTxt with
  | OpenResult.opened extras =>
    match processHostsFile extras "extras.txt".toList st.hosts with
    | none => none
    | some (hosts', some err) =>
      some ({ st₁ with hosts := hosts' }, some ("error reading extras: ".toList ++ err))
    | some (hosts', none) => some ({ st₁ with hosts := hosts' }, none)
  | OpenResult.notExist _ => some (st₁, none)
  | OpenResult.failed err => some (st₁, some ("error reading extras.txt: ".toList ++ err))

/-- The function `run`: the final state and the returned error; the outer `none` is a
panic. -/
def run (env : Env) (st : State) : Option (State × Option GoString) :=
  let st₀ : State := { st with trace := st.trace ++ [Event.openFile "sources.txt".toList] }
  match env.sourcesTxt with
  | Except.error err => some (st₀, some ("error opening sources: ".toList ++ err))
  | Except.ok sourcesFile =>
    match runSources env (scanLines sourcesFile).1 (st₀, []) with
    | none => none
    | some (st₁, _, some err) => some (st₁, some err)
    | some (st₁, sources, none) =>
      let sources := sortStrings sources
      match readExtras env st₁ with
      | none => none
      | some (st₂, some err) => some (st₂, some err)
      | some (st₂, none) =>
        match addMSEdgeBlockList env st₂ with
        | (st₃, some err) =>
          some (st₃, some ("error reading Microsoft Edge abusive list: ".toList ++ err))
        | (st₃, none) =>
          match writeHosts env sources st₃ with
          | (st₄, some err) => some (st₄, some ("error writing hosts file: ".toList ++ err))
          | (st₄, none) => some (st₄, none)

/-! ## The ordering of host names, in the words of the specification -/

/-- Lexicographically smaller: at the first position where the lists differ the element of
the first list is the smaller one, and a proper prefix is smaller than the longer list. -/
def lexLt {α : Type} [DecidableEq α] (lt : α → α → Bool) : List α → List α → Bool
  | _, [] => false
  | [], _ :: _ => true
  | x :: xs, y :: ys => lt x y || (decide (x = y) && lexLt lt xs ys)

/-- A strict total order, for a boolean relation. -/
structure IsStrictTotal {α : Type} (lt : α → α → Bool) : Prop where
  irrefl : ∀ a, lt a a = false
  trans : ∀ a b c, lt a b = true → lt b c = true → lt a c = true
  total : ∀ a b, a ≠ b → lt a b = true ∨ lt b a = true

/-- The function `strings.Join(labels, ".")`. -/
def joinDots : List GoString → GoString
  | [] => []
  | [label] => label
  | label :: next :: labels => label ++ '.' :: joinDots (next :: labels)

/-- One whole label is smaller than another, byte-wise. -/
def labelLt (a b : GoString) : Bool := lexLt (fun x y : Char => decide (x < y)) a b

/-- The dot-separated labels of a name, read from rightmost to leftmost. -/
def labelsRightToLeft (name : GoString) : List GoString := (splitDots name).reverse

/-- The rightmost label of a name. -/
def rightmostLabel (name : GoString) : GoString := (labelsRightToLeft name).headD []

/-- A name obtained from `domain` by prepending the labels of `pre`. -/
def subdomain (pre domain : GoString) : GoString := pre ++ '.' :: domain

/-- The entry is `parent` itself or a subdomain of it: its label list ends with the labels
of `parent`. -/
def isUnder (parent entry : GoString) : Bool :=
  (splitDots parent).isSuffixOf (splitDots entry)

/-! ## The accepted fields of a text, in the words of the specification -/

/-- The lines of a text. -/
def textLines (text : GoString) : List GoString := (splitLines [] text).map dropCR

/-- A field that begins with `#` starts a comment. -/
def beginsComment (field : GoString) : Bool := field.head? = some '#'

/-- A field that consists solely of digits and dots: an IP literal. -/
def isIPLiteral (field : GoString) : Bool := field.all (fun c => c.isDigit || c = '.')

/-- The HostEntry invariant: not empty, not an IP literal, not ending in `.001com`. -/
def validHostEntry (entry : GoString) : Bool :=
  entry ≠ [] && !isIPLiteral entry && !(".001com".toList).isSuffixOf entry

/-- The fields accepted on one line: the line's first field is exactly `0.0.0.0`; the
field comes after it and before the first field beginning with `#`; it is neither an IP
literal nor ends with `.001com`. -/
def acceptedOnLine (line : GoString) : List GoString :=
  match scanWords line with
  | [] => []
  | first :: rest =>
    if first = "0.0.0.0".toList then
      (rest.takeWhile (fun f => !beginsComment f)).filter
        (fun f => !isIPLiteral f && !(".001com".toList).isSuffixOf f)
    else []

/-- The accepted fields of a text, with repetitions, in reading order. -/
def acceptedFields (text : GoString) : List GoString :=
  (textLines text).flatMap acceptedOnLine

/-- A line whose first whitespace-delimited field is not exactly `0.0.0.0`; a line without
fields is one. -/
def ignoredLine (line : GoString) : Bool :=
  decide ((scanWords line).head? ≠ some "0.0.0.0".toList)

/-- The lines of a text that are left when the ignored lines are taken out. -/
def candidateLines (text : GoString) : List GoString :=
  (textLines text).filter (fun line => !ignoredLine line)

/-- The blocking rule of a domain, `0.0.0.0 <domain>`, without the end of line. -/
def blockingRule (domain : GoString) : GoString := "0.0.0.0 ".toList ++ domain

/-! ## Sequences of insertions into the Domain Set -/

/-- The two operations that insert into `hosts`: `processHostsFile` on a reader, and the
loop of `addMSEdgeBlockList` on a decoded site list. -/
inductive Insertion where
  | parse (contents : Reader) (source : GoString)
  | edge (sites : List GoString)

/-- The set after one insertion, whatever error the operation returns; `none` is a
panic. -/
def applyInsertion : Insertion → Hosts → Option Hosts
  | Insertion.parse contents source, hosts =>
    (processHostsFile contents source hosts).map Prod.fst
  | Insertion.edge sites, hosts => some (addSites sites hosts)

/-- The set after a sequence of insertions. -/
def applyInsertions : List Insertion → Hosts → Option Hosts
  | [], hosts => some hosts
  | op :: ops, hosts =>
    match applyInsertion op hosts with
    | none => none
    | some hosts' => applyInsertions ops hosts'

/-- The strings `addMSEdgeBlockList` inserts for a site list: each `url` and `www.` before
it. -/
def siteEntries (sites : List GoString) : List GoString :=
  sites.flatMap (fun url => [url, "www.".toList ++ url])

/-- The strings the block-list insertions of a sequence insert. -/
def edgeEntries : List Insertion → List GoString
  | [] => []
  | Insertion.parse _ _ :: ops => edgeEntries ops
  | Insertion.edge sites :: ops => siteEntries sites ++ edgeEntries ops

/-! ## The listed sources -/

/-- The sources listed in `sources.txt`: the trimmed lines that are not empty and do not
start with `#`. -/
def listedSources (lines : List GoString) : List GoString :=
  (lines.map trimSpace).filter (fun line => decide (line.length > 0) && !hasPrefix line "#".toList)

/-! ## A sample environment -/

/-- Three listed sources: `http://a` answers 200 with one host, the request to `http://b`
fails, `http://c` answers 404 with a body in hosts format.  There is no `extras.txt`, the
block list is empty, and an earlier run has left a `hosts.txt`. -/
def sampleEnv : Env where
  sourcesTxt := Except.ok ⟨"# sources\nhttp://a\n  http://b  \n\nhttp://c\n".toList, none⟩
  extrasTxt := OpenResult.notExist "open extras.txt: no such file or directory".toList
  httpGet := fun _ url =>
    if url = "http://b".toList then Except.error "connection refused".toList
    else if url = "http://c".toList then
      Except.ok ⟨404, ⟨"<html>\n0.0.0.0 c.example\n</html>".toList, none⟩⟩
    else Except.ok ⟨200, ⟨"0.0.0.0 a.example\n".toList, none⟩⟩
  jsonDecode := fun _ => Except.ok []
  createFault := none
  writeFault := none
  rangeHosts := fun hosts => hosts.sort (· ≤ ·)
  now := "Mon, 02 Jan 2006 15:04:05 +0000".toList

/-- The state before the sample run. -/
def sampleState : State := ⟨∅, some "0.0.0.0 old.example\n".toList, []⟩

/-! ## A `sources.txt` with a line longer than the buffer of the scanner -/

/-- A comment line of `n + 2` bytes: `# ` and then `n` times the letter `x`. -/
def longComment (n : Nat) : GoString := '#' :: ' ' :: List.replicate n 'x'

/-- The text of a `sources.txt` with three lines: `http://a`, a comment of 65538 bytes,
`http://d`. -/
def longSourcesTxt : GoString :=
  "http://a".toList ++ '\n' :: (longComment 65536 ++ '\n' :: "http://d\n".toList)

/-- The sample environment with `longSourcesTxt` as its `sources.txt`. -/
def longLineEnv : Env := { sampleEnv with sourcesTxt := Except.ok ⟨longSourcesTxt, none⟩ }

/-! ## A sample block list -/

/-- The body `{"sites":[{"url":"bad.example"}]}`. -/
def blocklistJSON : GoString :=
  "\x7b\"sites\":[\x7b\"url\":\"bad.example\"\x7d]\x7d".toList

/-- The sample environment with an endpoint that answers with `blocklistJSON`, which the
decoder of `encoding/json` turns into the list of the one site `bad.example`. -/
def blocklistEnv : Env :=
  { sampleEnv with
    httpGet := fun _ _ => Except.ok ⟨200, ⟨blocklistJSON, none⟩⟩
    jsonDecode := fun body =>
      if body.text = blocklistJSON then Except.ok ["bad.example".toList]
      else Except.error "invalid character".toList }

end HostsFile

/-! # Theorems -/

namespace HostsFile

theorem splitWords_ne_nil (line cur : GoString) :
    ∀ f ∈ splitWords cur line, f ≠ [] := by
  induction line generalizing cur with
  | nil =>
    intro f hf
    unfold splitWords at hf
    split at hf
    · simp at hf
    · simp only [List.mem_singleton] at hf
      subst hf
      simpa using ‹¬cur = []›
  | cons c cs ih =>
    intro f hf
    unfold splitWords at hf
    split at hf
    · split at hf
      · exact ih _ f hf
      · rcases List.mem_cons.1 hf with h | h
        · subst h
          simpa using ‹¬cur = []›
        · exact ih _ f h
    · exact ih _ f hf

theorem scanWords_ne_nil (line : GoString) : ∀ f ∈ scanWords line, f ≠ [] :=
  splitWords_ne_nil line []

theorem addrRE_eq_isIPLiteral (f : GoString) : addrRE f = isIPLiteral f := rfl

theorem scanFields_eq (fields : List GoString) (hne : ∀ f ∈ fields, f ≠ [])
    (hosts : Hosts) (n : Nat) :
    scanFields fields (hosts, n) =
      some (hosts ∪ ((fields.takeWhile (fun f => !beginsComment f)).filter
              (fun f => !isIPLiteral f && !(".001com".toList).isSuffixOf f)).toFinset,
            n + ((fields.takeWhile (fun f => !beginsComment f)).filter
              (fun f => !isIPLiteral f && !(".001com".toList).isSuffixOf f)).length) := by
  induction fields generalizing hosts n with
  | nil => simp [scanFields]
  | cons f rest ih =>
    have hrest : ∀ g ∈ rest, g ≠ [] := fun g hg => hne g (List.mem_cons_of_mem _ hg)
    cases f with
    | nil => exact absurd rfl (hne [] (List.mem_cons_self _ _))
    | cons c cs =>
      unfold scanFields
      by_cases hc : c = '#'
      · subst hc
        simp [beginsComment]
      · have hb : beginsComment (c :: cs) = false := by
          simp [beginsComment, hc]
        rw [if_neg hc, List.takeWhile_cons, hb]
        simp only [Bool.not_false, if_true]
        by_cases ha : addrRE (c :: cs) = true
        · rw [if_pos ha, ih hrest]
          have : isIPLiteral (c :: cs) = true := by rw [← addrRE_eq_isIPLiteral]; exact ha
          rw [List.filter_cons_of_neg (by rw [this]; exact Bool.false_ne_true)]
        · rw [if_neg ha]
          have hip : isIPLiteral (c :: cs) = false := by
            rw [← addrRE_eq_isIPLiteral]; simpa using ha
          by_cases hs : hasSuffix (c :: cs) ".001com".toList = true
          · rw [if_pos hs, ih hrest]
            have hs' : (".001com".toList).isSuffixOf (c :: cs) = true := hs
            rw [List.filter_cons_of_neg (by rw [hip, hs']; exact Bool.false_ne_true)]
          · rw [if_neg hs, ih hrest]
            have hs' : (".001com".toList).isSuffixOf (c :: cs) = false :=
              Bool.eq_false_iff.2 hs
            rw [List.filter_cons_of_pos (by rw [hip, hs']; rfl)]
            simp only [List.toFinset_cons, List.length_cons]
            congr 2
            · ext x
              simp only [Finset.mem_union, Finset.mem_insert]
              tauto
            · omega

theorem processLine_eq (line : GoString) (hosts : Hosts) (n : Nat) :
    processLine line (hosts, n) =
      some (hosts ∪ (acceptedOnLine line).toFinset, n + (acceptedOnLine line).length) := by
  unfold processLine acceptedOnLine
  have hne := scanWords_ne_nil line
  cases hw : scanWords line with
  | nil => simp
  | cons first rest =>
    rw [hw] at hne
    by_cases h0 : first = "0.0.0.0".toList
    · simp only [h0, ne_eq, not_true_eq_false, if_false, if_true]
      exact scanFields_eq rest (fun g hg => hne g (List.mem_cons_of_mem _ hg)) hosts n
    · simp only [ne_eq, h0, not_false_eq_true, if_true, if_false, List.toFinset_nil,
        Finset.union_empty, List.length_nil, Nat.add_zero]

theorem processLines_eq (lines : List GoString) (hosts : Hosts) (n : Nat) :
    processLines lines (hosts, n) =
      some (hosts ∪ (lines.flatMap acceptedOnLine).toFinset,
            n + (lines.flatMap acceptedOnLine).length) := by
  induction lines generalizing hosts n with
  | nil => simp [processLines]
  | cons line rest ih =>
    unfold processLines
    rw [processLine_eq]
    simp only [ih, List.flatMap_cons, List.toFinset_append, List.length_append]
    congr 2
    · rw [Finset.union_assoc]
    · omega

theorem scanLines_ok (contents : Reader) (h : (scanLines contents).2 = none) :
    (scanLines contents).1 = textLines contents.text := by
  unfold scanLines at h ⊢
  unfold textLines
  simp only at h ⊢
  by_cases hlen : ((splitLines [] contents.text).takeWhile
      (fun p => byteLen p < maxScanTokenSize)).length < (splitLines [] contents.text).length
  · rw [if_pos hlen] at h
    cases h
  · have hle := List.takeWhile_sublist (fun p => decide (byteLen p < maxScanTokenSize))
      (l := splitLines [] contents.text)
    have heq := hle.eq_of_length_le (by omega)
    rw [heq]

theorem processHostsFile_eq (contents : Reader) (source : GoString) (hosts : Hosts) :
    processHostsFile contents source hosts =
      some (hosts ∪ ((scanLines contents).1.flatMap acceptedOnLine).toFinset,
        match (scanLines contents).2 with
        | some err => some ("error reading hosts: ".toList ++ err)
        | none =>
          if ((scanLines contents).1.flatMap acceptedOnLine).length = 0 then some errNoHosts
          else none) := by
  unfold processHostsFile
  simp only [processLines_eq, Nat.zero_add]
  cases (scanLines contents).2 with
  | some err => rfl
  | none =>
    by_cases h : ((scanLines contents).1.flatMap acceptedOnLine).length = 0
    · simp only [h, if_true]
    · simp only [h, if_false]

theorem processHostsFile_readable (contents : Reader) (source : GoString) (hosts : Hosts)
    (hread : (scanLines contents).2 = none) :
    processHostsFile contents source hosts =
      some (hosts ∪ (acceptedFields contents.text).toFinset,
        if acceptedFields contents.text = [] then some errNoHosts else none) := by
  rw [processHostsFile_eq, hread, scanLines_ok contents hread]
  simp only [acceptedFields, List.length_eq_zero]

theorem processHostsFile_success (contents : Reader) (source : GoString) (hosts hosts' : Hosts)
    (h : processHostsFile contents source hosts = some (hosts', none)) :
    (scanLines contents).2 = none ∧ acceptedFields contents.text ≠ [] ∧
      hosts' = hosts ∪ (acceptedFields contents.text).toFinset := by
  cases hread : (scanLines contents).2 with
  | some err =>
    rw [processHostsFile_eq, hread] at h
    simp at h
  | none =>
    rw [processHostsFile_readable contents source hosts hread] at h
    by_cases hacc : acceptedFields contents.text = []
    · rw [if_pos hacc] at h
      simp at h
    · rw [if_neg hacc] at h
      simp only [Option.some.injEq, Prod.mk.injEq, and_true] at h
      exact ⟨rfl, hacc, h.symm⟩

/-- C1: after `processHostsFile` succeeds the Domain Set is exactly the prior set united
with the set of accepted fields of the text (fields after the first field `0.0.0.0` of a
line and before the first field beginning with `#`, neither digits-and-dots only nor
ending in `.001com`), and every accepted field is in it exactly once however often the
text repeats it. -/
theorem processHostsFile_domain_set (contents : Reader) (source : GoString)
    (hosts hosts' : Hosts)
    (h : processHostsFile contents source hosts = some (hosts', none)) :
    hosts' = hosts ∪ (acceptedFields contents.text).toFinset ∧
      ∀ f ∈ acceptedFields contents.text, hosts'.val.count f = 1 := by
  obtain ⟨_, _, heq⟩ := processHostsFile_success contents source hosts hosts' h
  refine ⟨heq, fun f hf => ?_⟩
  have hmem : f ∈ hosts' := by
    rw [heq]
    exact Finset.mem_union_right _ (List.mem_toFinset.2 hf)
  exact Multiset.count_eq_one_of_mem hosts'.nodup hmem

/-- Witness for C1: a text with a repeated host, an IP literal, a `.001com` name, a
comment and a line that does not start with `0.0.0.0`. -/
theorem processHostsFile_domain_set_witness :
    ({"b".toList, "a.com".toList} : Hosts) =
        ∅ ∪ (acceptedFields
          "0.0.0.0 a.com 1.2.3.4 x.001com #c d\n127.0.0.1 q\n0.0.0.0 a.com b".toList).toFinset ∧
      ∀ f ∈ acceptedFields
          "0.0.0.0 a.com 1.2.3.4 x.001com #c d\n127.0.0.1 q\n0.0.0.0 a.com b".toList,
        ({"b".toList, "a.com".toList} : Hosts).val.count f = 1 :=
  processHostsFile_domain_set
    ⟨"0.0.0.0 a.com 1.2.3.4 x.001com #c d\n127.0.0.1 q\n0.0.0.0 a.com b".toList, none⟩ []
    ∅ {"b".toList, "a.com".toList} (by decide)

/-! ## Lexicographic order -/

theorem IsStrictTotal.asymm {α : Type} {lt : α → α → Bool} (h : IsStrictTotal lt)
    (a b : α) (hab : lt a b = true) : lt b a = false := by
  cases hba : lt b a with
  | false => rfl
  | true =>
    have := h.trans a b a hab hba
    rw [h.irrefl a] at this
    cases this

theorem lexLt_irrefl {α : Type} [DecidableEq α] {lt : α → α → Bool} (h : IsStrictTotal lt)
    (l : List α) : lexLt lt l l = false := by
  induction l with
  | nil => rfl
  | cons x xs ih => simp [lexLt, h.irrefl x, ih]

theorem lexLt_trans {α : Type} [DecidableEq α] {lt : α → α → Bool} (h : IsStrictTotal lt)
    (l₁ l₂ l₃ : List α) (h₁ : lexLt lt l₁ l₂ = true) (h₂ : lexLt lt l₂ l₃ = true) :
    lexLt lt l₁ l₃ = true := by
  induction l₁ generalizing l₂ l₃ with
  | nil =>
    cases l₃ with
    | nil => cases l₂ <;> simp [lexLt] at h₂
    | cons z zs => rfl
  | cons x xs ih =>
    cases l₂ with
    | nil => simp [lexLt] at h₁
    | cons y ys =>
      cases l₃ with
      | nil => simp [lexLt] at h₂
      | cons z zs =>
        simp only [lexLt, Bool.or_eq_true, Bool.and_eq_true, decide_eq_true_eq] at h₁ h₂ ⊢
        rcases h₁ with hxy | ⟨hxy, hr₁⟩
        · rcases h₂ with hyz | ⟨hyz, _⟩
          · exact Or.inl (h.trans x y z hxy hyz)
          · subst hyz
            exact Or.inl hxy
        · subst hxy
          rcases h₂ with hyz | ⟨hyz, hr₂⟩
          · exact Or.inl hyz
          · exact Or.inr ⟨hyz, ih ys zs hr₁ hr₂⟩

theorem lexLt_total {α : Type} [DecidableEq α] {lt : α → α → Bool} (h : IsStrictTotal lt)
    (l₁ l₂ : List α) (hne : l₁ ≠ l₂) : lexLt lt l₁ l₂ = true ∨ lexLt lt l₂ l₁ = true := by
  induction l₁ generalizing l₂ with
  | nil =>
    cases l₂ with
    | nil => exact absurd rfl hne
    | cons y ys => exact Or.inl rfl
  | cons x xs ih =>
    cases l₂ with
    | nil => exact Or.inr rfl
    | cons y ys =>
      simp only [lexLt, Bool.or_eq_true, Bool.and_eq_true, decide_eq_true_eq]
      by_cases hxy : x = y
      · subst hxy
        have hne' : xs ≠ ys := fun e => hne (by rw [e])
        rcases ih ys hne' with hr | hr
        · exact Or.inl (Or.inr ⟨rfl, hr⟩)
        · exact Or.inr (Or.inr ⟨rfl, hr⟩)
      · rcases h.total x y hxy with hr | hr
        · exact Or.inl (Or.inl hr)
        · exact Or.inr (Or.inl hr)

theorem lexLt_strictTotal {α : Type} [DecidableEq α] {lt : α → α → Bool}
    (h : IsStrictTotal lt) : IsStrictTotal (lexLt lt) :=
  ⟨lexLt_irrefl h, lexLt_trans h, lexLt_total h⟩

theorem char_strictTotal : IsStrictTotal (fun x y : Char => decide (x < y)) where
  irrefl := fun a => by simp
  trans := fun a b c hab hbc => by
    simp only [decide_eq_true_eq] at hab hbc ⊢
    exact lt_trans hab hbc
  total := fun a b hne => by
    simp only [decide_eq_true_eq]
    exact lt_or_gt_of_ne hne

theorem labelLt_strictTotal : IsStrictTotal labelLt := lexLt_strictTotal char_strictTotal

theorem labelsLt_strictTotal : IsStrictTotal (lexLt labelLt) :=
  lexLt_strictTotal labelLt_strictTotal

theorem IsStrictTotal.eq_not {α : Type} {lt : α → α → Bool} (h : IsStrictTotal lt)
    (a b : α) (hne : a ≠ b) : lt a b = !lt b a := by
  rcases h.total a b hne with hab | hba
  · rw [hab, h.asymm a b hab]; rfl
  · rw [hba, h.asymm b a hba]; rfl

/-! ## The comparator -/

theorem stringsCompare_eq (a b : GoString) :
    stringsCompare a b = if labelLt a b = true then -1 else if a = b then 0 else 1 := by
  induction a generalizing b with
  | nil =>
    cases b with
    | nil => simp [stringsCompare, labelLt, lexLt]
    | cons y ys => simp [stringsCompare, labelLt, lexLt]
  | cons x xs ih =>
    cases b with
    | nil => simp [stringsCompare, labelLt, lexLt]
    | cons y ys =>
      unfold stringsCompare
      have hl : labelLt (x :: xs) (y :: ys) =
          (decide (x < y) || (decide (x = y) && labelLt xs ys)) := rfl
      rw [hl]
      by_cases hxy : x < y
      · simp [hxy]
      · by_cases hyx : y < x
        · have hne : x ≠ y := fun e => by subst e; exact hxy hyx
          simp [hxy, hyx, hne]
        · have he : x = y := le_antisymm (not_lt.1 hyx) (not_lt.1 hxy)
          subst he
          simp [ih ys]

theorem stringsCompare_ne_zero (a b : GoString) : stringsCompare a b ≠ 0 ↔ a ≠ b := by
  rw [stringsCompare_eq]
  by_cases hl : labelLt a b = true
  · have hne : a ≠ b := fun e => by
      subst e
      rw [labelLt_strictTotal.irrefl a] at hl
      cases hl
    simp [hl, hne]
  · by_cases he : a = b
    · subst he
      simp [labelLt_strictTotal.irrefl]
    · simp [hl, he]

theorem stringsCompare_neg (a b : GoString) :
    decide (stringsCompare a b < 0) = labelLt a b := by
  rw [stringsCompare_eq]
  by_cases hl : labelLt a b = true
  · simp [hl]
  · have hf : labelLt a b = false := Bool.eq_false_iff.2 hl
    by_cases he : a = b
    · subst he
      simp [labelLt_strictTotal.irrefl]
    · simp [hf, he]

theorem take_succ_reverse (l : List GoString) (n : Nat) (h : n < l.length) :
    (l.take (n + 1)).reverse = l.getD n [] :: (l.take n).reverse := by
  rw [List.take_succ, List.getD_eq_getElem?_getD, List.getElem?_eq_getElem h]
  simp

theorem lessLoop_eq (left right : List GoString) (leftIndex rightIndex : Nat)
    (hl : leftIndex ≤ left.length) (hr : rightIndex ≤ right.length) :
    lessLoop left right leftIndex rightIndex =
      !lexLt labelLt (right.take rightIndex).reverse (left.take leftIndex).reverse := by
  induction leftIndex generalizing rightIndex with
  | zero =>
    cases h : (right.take rightIndex).reverse <;> simp [lessLoop, lexLt]
  | succ li ih =>
    cases rightIndex with
    | zero =>
      rw [take_succ_reverse left li (by omega)]
      simp [lessLoop, lexLt]
    | succ ri =>
      rw [take_succ_reverse left li (by omega), take_succ_reverse right ri (by omega)]
      unfold lessLoop
      simp only [lexLt]
      by_cases he : left.getD li [] = right.getD ri []
      · have h0 : ¬ stringsCompare (left.getD li []) (right.getD ri []) ≠ 0 := by
          rw [stringsCompare_ne_zero]; exact fun hn => hn he
        rw [if_neg h0, ih ri (by omega) (by omega), he, labelLt_strictTotal.irrefl]
        simp
      · have h0 : stringsCompare (left.getD li []) (right.getD ri []) ≠ 0 := by
          rw [stringsCompare_ne_zero]; exact he
        rw [if_pos h0, stringsCompare_neg, labelLt_strictTotal.eq_not _ _ he]
        have he' : ¬ right.getD ri [] = left.getD li [] := fun e => he e.symm
        rw [decide_eq_false he']
        simp only [Bool.false_and, Bool.or_false]

theorem less_eq (a b : GoString) :
    less a b = !lexLt labelLt (labelsRightToLeft b) (labelsRightToLeft a) := by
  unfold less labelsRightToLeft
  simp only
  rw [lessLoop_eq _ _ _ _ (le_refl _) (le_refl _), List.take_length, List.take_length]

theorem splitDots_ne_nil (s : GoString) : splitDots s ≠ [] := by
  cases s with
  | nil => simp [splitDots]
  | cons c cs =>
    unfold splitDots
    split
    · simp
    · split <;> simp

theorem joinDots_splitDots (s : GoString) : joinDots (splitDots s) = s := by
  induction s with
  | nil => rfl
  | cons c cs ih =>
    unfold splitDots
    by_cases hc : c = '.'
    · rw [if_pos hc]
      cases hs : splitDots cs with
      | nil => exact absurd hs (splitDots_ne_nil cs)
      | cons l ls =>
        rw [hs] at ih
        simp only [joinDots, List.nil_append]
        rw [ih, hc]
    · rw [if_neg hc]
      cases hs : splitDots cs with
      | nil => exact absurd hs (splitDots_ne_nil cs)
      | cons l ls =>
        rw [hs] at ih
        simp only
        cases ls with
        | nil =>
          simp only [joinDots] at ih ⊢
          rw [ih]
        | cons m ms =>
          simp only [joinDots] at ih ⊢
          rw [← ih]
          rfl

theorem splitDots_injective (a b : GoString) (h : splitDots a = splitDots b) : a = b := by
  rw [← joinDots_splitDots a, ← joinDots_splitDots b, h]

theorem labelsRightToLeft_injective (a b : GoString)
    (h : labelsRightToLeft a = labelsRightToLeft b) : a = b :=
  splitDots_injective a b (List.reverse_injective h)

theorem splitDots_cons_dot (cs : GoString) : splitDots ('.' :: cs) = [] :: splitDots cs := by
  simp [splitDots]

theorem splitDots_cons_of_ne (c : Char) (cs : GoString) (hc : c ≠ '.') :
    splitDots (c :: cs) = (c :: (splitDots cs).headD []) :: (splitDots cs).tail := by
  rw [splitDots, if_neg hc]
  cases splitDots cs <;> rfl

theorem splitDots_subdomain (pre domain : GoString) :
    splitDots (subdomain pre domain) = splitDots pre ++ splitDots domain := by
  unfold subdomain
  induction pre with
  | nil => rw [List.nil_append, splitDots_cons_dot]; rfl
  | cons c cs ih =>
    rw [List.cons_append]
    by_cases hc : c = '.'
    · subst hc
      rw [splitDots_cons_dot, splitDots_cons_dot, ih, List.cons_append]
    · rw [splitDots_cons_of_ne _ _ hc, splitDots_cons_of_ne _ _ hc, ih]
      cases hs : splitDots cs with
      | nil => exact absurd hs (splitDots_ne_nil cs)
      | cons l ls => rfl

theorem IsStrictTotal.le_trans {α : Type} {lt : α → α → Bool} (h : IsStrictTotal lt)
    (a b c : α) (hab : lt b a = false) (hbc : lt c b = false) : lt c a = false := by
  by_cases he : a = b
  · subst he; exact hbc
  · have hlt : lt a b = true := by rw [h.eq_not a b he, hab]; rfl
    cases hca : lt c a with
    | false => rfl
    | true =>
      have := h.trans c a b hca hlt
      rw [hbc] at this
      cases this

theorem less_trans (a b c : GoString) (hab : less a b = true) (hbc : less b c = true) :
    less a c = true := by
  rw [less_eq, Bool.not_eq_true'] at hab hbc ⊢
  exact labelsLt_strictTotal.le_trans _ _ _ hab hbc

theorem less_total (a b : GoString) : less a b = true ∨ less b a = true := by
  rw [less_eq, less_eq, Bool.not_eq_true', Bool.not_eq_true']
  cases h : lexLt labelLt (labelsRightToLeft b) (labelsRightToLeft a) with
  | false => exact Or.inl rfl
  | true => exact Or.inr (labelsLt_strictTotal.asymm _ _ h)

theorem less_of_ne (a b : GoString) (hne : a ≠ b) : less a b = !less b a := by
  have hl : labelsRightToLeft a ≠ labelsRightToLeft b :=
    fun e => hne (labelsRightToLeft_injective a b e)
  rw [less_eq, less_eq, labelsLt_strictTotal.eq_not _ _ hl, Bool.not_not]

theorem less_antisymm (a b : GoString) (hab : less a b = true) (hba : less b a = true) :
    a = b := by
  by_contra hne
  rw [less_of_ne a b hne, hba] at hab
  cases hab

/-- C2: for two distinct host names the comparator of `writeHosts` orders `a` before `b`
exactly when the list of the dot-separated labels of `a`, read from rightmost to leftmost,
is lexicographically smaller than that of `b`, labels compared as whole strings and a
proper prefix being the smaller list. -/
theorem less_iff_labels_lexLt (a b : GoString) (hne : a ≠ b) :
    less a b = lexLt labelLt (labelsRightToLeft a) (labelsRightToLeft b) := by
  have hl : labelsRightToLeft b ≠ labelsRightToLeft a :=
    fun e => hne (labelsRightToLeft_injective b a e).symm
  rw [less_eq, labelsLt_strictTotal.eq_not _ _ hl, Bool.not_not]

/-- Witness for C2: `b.a` against `a.b`, where the order of the whole strings and the
order of the label lists from the right disagree. -/
theorem less_iff_labels_lexLt_witness :
    less "b.a".toList "a.b".toList =
      lexLt labelLt (labelsRightToLeft "b.a".toList) (labelsRightToLeft "a.b".toList) :=
  less_iff_labels_lexLt "b.a".toList "a.b".toList (by decide)

/-- C3: the comparator of `writeHosts` is transitive, and of two distinct host names
exactly one is ordered before the other. -/
theorem less_total_order :
    (∀ a b c : GoString, less a b = true → less b c = true → less a c = true) ∧
      (∀ a b : GoString, a ≠ b →
        (less a b = true ∧ less b a = false) ∨ (less a b = false ∧ less b a = true)) := by
  refine ⟨less_trans, fun a b hne => ?_⟩
  have h := less_of_ne a b hne
  cases hba : less b a with
  | false => rw [hba] at h; exact Or.inl ⟨h, rfl⟩
  | true => rw [hba] at h; exact Or.inr ⟨h, rfl⟩

/-- Witness for C3: a chain of three names, and a pair of distinct names. -/
theorem less_total_order_witness :
    less "example.com".toList "example.org".toList = true ∧
      ((less "example.com".toList "a.example.com".toList = true ∧
          less "a.example.com".toList "example.com".toList = false) ∨
        (less "example.com".toList "a.example.com".toList = false ∧
          less "a.example.com".toList "example.com".toList = true)) :=
  ⟨less_total_order.1 "example.com".toList "a.example.com".toList "example.org".toList
      (by decide) (by decide),
    less_total_order.2 "example.com".toList "a.example.com".toList (by decide)⟩

/-! ## The sort -/

theorem siftLeft_perm {α : Type} (lt : α → α → Bool) (x : α) (done : List α) :
    (siftLeft lt x done).Perm (x :: done) := by
  induction done with
  | nil => exact List.Perm.refl _
  | cons y before ih =>
    unfold siftLeft
    split
    · exact ((List.Perm.cons y ih).trans (List.Perm.swap x y before))
    · exact List.Perm.refl _

theorem insertionSort_perm {α : Type} (lt : α → α → Bool) (done rest : List α) :
    (insertionSort lt done rest).Perm (done ++ rest) := by
  induction rest generalizing done with
  | nil =>
    unfold insertionSort
    rw [List.append_nil]
    exact List.reverse_perm done
  | cons x rest ih =>
    unfold insertionSort
    refine (ih (siftLeft lt x done)).trans ?_
    refine ((siftLeft_perm lt x done).append_right rest).trans ?_
    exact List.perm_middle.symm

theorem sortSlice_perm {α : Type} (lt : α → α → Bool) (data : List α) :
    (sortSlice lt data).Perm data :=
  insertionSort_perm lt [] data

theorem siftLeft_sorted {α : Type} (lt : α → α → Bool)
    (htotal : ∀ a b, lt a b = true ∨ lt b a = true)
    (htrans : ∀ a b c, lt a b = true → lt b c = true → lt a c = true)
    (x : α) (done : List α) (h : done.Pairwise (fun u v => lt v u = true)) :
    (siftLeft lt x done).Pairwise (fun u v => lt v u = true) := by
  induction done with
  | nil => exact List.pairwise_singleton _ _
  | cons y before ih =>
    rw [List.pairwise_cons] at h
    unfold siftLeft
    by_cases hxy : lt x y = true
    · rw [if_pos hxy, List.pairwise_cons]
      refine ⟨fun v hv => ?_, ih h.2⟩
      rcases List.mem_cons.1 ((siftLeft_perm lt x before).mem_iff.1 hv) with hv | hv
      · rw [hv]; exact hxy
      · exact h.1 v hv
    · rw [if_neg hxy]
      have hyx : lt y x = true := (htotal x y).resolve_left hxy
      refine List.pairwise_cons.2 ⟨fun v hv => ?_, List.pairwise_cons.2 h⟩
      rcases List.mem_cons.1 hv with hv | hv
      · rw [hv]; exact hyx
      · exact htrans v y x (h.1 v hv) hyx

theorem insertionSort_sorted {α : Type} (lt : α → α → Bool)
    (htotal : ∀ a b, lt a b = true ∨ lt b a = true)
    (htrans : ∀ a b c, lt a b = true → lt b c = true → lt a c = true)
    (done rest : List α) (h : done.Pairwise (fun u v => lt v u = true)) :
    (insertionSort lt done rest).Pairwise (fun a b => lt a b = true) := by
  induction rest generalizing done with
  | nil =>
    unfold insertionSort
    exact List.pairwise_reverse.2 h
  | cons x rest ih =>
    unfold insertionSort
    exact ih _ (siftLeft_sorted lt htotal htrans x done h)

theorem sortedHosts_perm (keys : List GoString) : (sortedHosts keys).Perm keys :=
  sortSlice_perm less keys

theorem sortedHosts_sorted (keys : List GoString) :
    (sortedHosts keys).Pairwise (fun a b => less a b = true) :=
  insertionSort_sorted less less_total less_trans [] keys List.Pairwise.nil

theorem sortedHosts_unique (keys out : List GoString) (hperm : out.Perm keys)
    (hsorted : out.Pairwise (fun a b => less a b = true)) : out = sortedHosts keys := by
  haveI : IsAntisymm GoString (fun a b => less a b = true) := ⟨less_antisymm⟩
  exact List.eq_of_perm_of_sorted (hperm.trans (sortedHosts_perm keys).symm) hsorted
    (sortedHosts_sorted keys)

theorem sortSlice_unique (keys out : List GoString) (hnodup : keys.Nodup)
    (hperm : out.Perm keys) (hsorted : out.Pairwise (fun a b => less b a = false)) :
    out = sortedHosts keys := by
  have hnd : out.Pairwise (fun a b => a ≠ b) := hperm.nodup_iff.2 hnodup
  refine sortedHosts_unique keys out hperm ((hnd.and hsorted).imp ?_)
  intro a b h
  rw [less_of_ne a b h.1, h.2]
  rfl

theorem sortedHosts_congr (keys₁ keys₂ : List GoString) (h : keys₁.Perm keys₂) :
    sortedHosts keys₁ = sortedHosts keys₂ :=
  sortedHosts_unique keys₂ (sortedHosts keys₁) ((sortedHosts_perm keys₁).trans h)
    (sortedHosts_sorted keys₁)

/-! ## Domains and their subdomains -/

theorem lexLt_append_right {α : Type} [DecidableEq α] (lt : α → α → Bool)
    (l t : List α) (ht : t ≠ []) : lexLt lt l (l ++ t) = true := by
  induction l with
  | nil =>
    cases t with
    | nil => exact absurd rfl ht
    | cons y ys => rfl
  | cons x xs ih => simp [lexLt, ih]

theorem labelsRightToLeft_subdomain (pre domain : GoString) :
    labelsRightToLeft (subdomain pre domain) =
      labelsRightToLeft domain ++ labelsRightToLeft pre := by
  unfold labelsRightToLeft
  rw [splitDots_subdomain, List.reverse_append]

theorem labelsRightToLeft_ne_nil (name : GoString) : labelsRightToLeft name ≠ [] := by
  unfold labelsRightToLeft
  intro h
  exact splitDots_ne_nil name (List.reverse_eq_nil_iff.1 h)

theorem less_subdomain (pre domain : GoString) :
    less domain (subdomain pre domain) = true ∧ less (subdomain pre domain) domain = false := by
  have hlt : lexLt labelLt (labelsRightToLeft domain)
      (labelsRightToLeft (subdomain pre domain)) = true := by
    rw [labelsRightToLeft_subdomain]
    exact lexLt_append_right labelLt _ _ (labelsRightToLeft_ne_nil pre)
  constructor
  · rw [less_eq, labelsLt_strictTotal.asymm _ _ hlt]; rfl
  · rw [less_eq, hlt]; rfl

theorem less_of_rightmost_ne (a b : GoString) (hne : rightmostLabel a ≠ rightmostLabel b) :
    less a b = labelLt (rightmostLabel a) (rightmostLabel b) := by
  rw [less_eq]
  unfold rightmostLabel at hne ⊢
  cases ha : labelsRightToLeft a with
  | nil => exact absurd ha (labelsRightToLeft_ne_nil a)
  | cons x xs =>
    cases hb : labelsRightToLeft b with
    | nil => exact absurd hb (labelsRightToLeft_ne_nil b)
    | cons y ys =>
      rw [ha, hb] at hne
      simp only [List.headD_cons] at hne ⊢
      have hyx : ¬ y = x := fun e => hne e.symm
      simp only [lexLt, decide_eq_false hyx, Bool.false_and, Bool.or_false]
      rw [labelLt_strictTotal.eq_not x y hne]

/-- C5: every domain sorts before each of its subdomains, names whose rightmost labels
differ are ordered by those labels, and whatever the order in which the four names
`a.example.com`, `b.example.com`, `example.com`, `example.org` are enumerated the sorted
slice is `example.com`, `a.example.com`, `b.example.com`, `example.org`. -/
theorem less_domain_before_subdomain :
    (∀ pre domain : GoString,
        less domain (subdomain pre domain) = true ∧
          less (subdomain pre domain) domain = false) ∧
      (∀ a b : GoString, rightmostLabel a ≠ rightmostLabel b →
        less a b = labelLt (rightmostLabel a) (rightmostLabel b)) ∧
      (∀ keys : List GoString,
        keys.Perm ["a.example.com".toList, "b.example.com".toList, "example.com".toList,
          "example.org".toList] →
        sortedHosts keys = ["example.com".toList, "a.example.com".toList,
          "b.example.com".toList, "example.org".toList]) := by
  refine ⟨less_subdomain, less_of_rightmost_ne, fun keys hperm => ?_⟩
  rw [sortedHosts_congr _ _ hperm]
  decide

/-- Witness for C5: the rightmost labels `com` and `org`, and the four names enumerated
in another order. -/
theorem less_domain_before_subdomain_witness :
    less "zzz.example.com".toList "example.org".toList =
        labelLt (rightmostLabel "zzz.example.com".toList) (rightmostLabel "example.org".toList) ∧
      sortedHosts ["example.org".toList, "b.example.com".toList, "example.com".toList,
          "a.example.com".toList] =
        ["example.com".toList, "a.example.com".toList, "b.example.com".toList,
          "example.org".toList] :=
  ⟨less_domain_before_subdomain.2.1 "zzz.example.com".toList "example.org".toList (by decide),
    less_domain_before_subdomain.2.2 ["example.org".toList, "b.example.com".toList,
      "example.com".toList, "a.example.com".toList] (by decide)⟩

/-! ## Contiguous blocks -/

theorem prefix_between {α : Type} [DecidableEq α] {lt : α → α → Bool} (h : IsStrictTotal lt)
    (r l₁ l₂ l₃ : List α) (h₁ : r <+: l₁) (h₃ : r <+: l₃)
    (h₁₂ : lexLt lt l₂ l₁ = false) (h₂₃ : lexLt lt l₃ l₂ = false) : r <+: l₂ := by
  induction r generalizing l₁ l₂ l₃ with
  | nil => exact List.nil_prefix
  | cons c r ih =>
    cases l₁ with
    | nil => simp at h₁
    | cons x xs =>
      cases l₃ with
      | nil => simp at h₃
      | cons z zs =>
        rw [List.cons_prefix_cons] at h₁ h₃
        obtain ⟨hx, h₁⟩ := h₁
        obtain ⟨hz, h₃⟩ := h₃
        subst hx
        subst hz
        cases l₂ with
        | nil => simp [lexLt] at h₁₂
        | cons y ys =>
          simp only [lexLt, Bool.or_eq_false_iff, Bool.and_eq_false_iff,
            decide_eq_false_iff_not] at h₁₂ h₂₃
          have hyc : y = c := by
            by_contra hne
            rcases h.total y c hne with hlt | hlt
            · rw [h₁₂.1] at hlt; cases hlt
            · rw [h₂₃.1] at hlt; cases hlt
          subst hyc
          rw [List.cons_prefix_cons]
          refine ⟨rfl, ih xs ys zs h₁ h₃ ?_ ?_⟩
          · exact h₁₂.2.resolve_left (fun hn => hn rfl)
          · exact h₂₃.2.resolve_left (fun hn => hn rfl)

theorem isUnder_iff (parent entry : GoString) :
    isUnder parent entry = true ↔ labelsRightToLeft parent <+: labelsRightToLeft entry := by
  unfold isUnder labelsRightToLeft
  rw [List.isSuffixOf_iff_suffix, List.reverse_prefix]

theorem isUnder_between (parent x y z : GoString) (hxy : less x y = true)
    (hyz : less y z = true) (hx : isUnder parent x = true) (hz : isUnder parent z = true) :
    isUnder parent y = true := by
  rw [isUnder_iff] at hx hz ⊢
  rw [less_eq, Bool.not_eq_true'] at hxy hyz
  exact prefix_between labelLt_strictTotal _ _ _ _ hx hz hxy hyz

theorem sortedHosts_less_of_lt (keys : List GoString) (i j : Nat) (x y : GoString)
    (hij : i < j) (hx : (sortedHosts keys)[i]? = some x)
    (hy : (sortedHosts keys)[j]? = some y) : less x y = true := by
  obtain ⟨hi, hxe⟩ := List.getElem?_eq_some_iff.1 hx
  obtain ⟨hj, hye⟩ := List.getElem?_eq_some_iff.1 hy
  have h := List.pairwise_iff_getElem.1 (sortedHosts_sorted keys) i j hi hj hij
  rw [hxe, hye] at h
  exact h

/-- C6: in the sorted slice of `writeHosts`, whatever the enumeration order of the map
and for every parent domain, an entry that stands between two entries under the parent
(the parent itself or a subdomain of it: the label list ends with the parent's labels) is
under the parent as well, so the entries under a parent form one contiguous block. -/
theorem sortedHosts_contiguous (keys : List GoString) (parent : GoString) (i j k : Nat)
    (x y z : GoString) (hij : i < j) (hjk : j < k)
    (hx : (sortedHosts keys)[i]? = some x) (hy : (sortedHosts keys)[j]? = some y)
    (hz : (sortedHosts keys)[k]? = some z)
    (hux : isUnder parent x = true) (huz : isUnder parent z = true) :
    isUnder parent y = true :=
  isUnder_between parent x y z (sortedHosts_less_of_lt keys i j x y hij hx hy)
    (sortedHosts_less_of_lt keys j k y z hjk hy hz) hux huz

/-- Witness for C6: names of one, two and three labels under `example.com`, enumerated
among names that a sort of the whole strings would put between them. -/
theorem sortedHosts_contiguous_witness :
    isUnder "example.com".toList "z.a.example.com".toList = true :=
  sortedHosts_contiguous
    ["b.example.com".toList, "ab.org".toList, "z.a.example.com".toList, "c.net".toList,
      "example.com".toList, "example.com.au".toList]
    "example.com".toList 1 2 3 "example.com".toList "z.a.example.com".toList
    "b.example.com".toList (by decide) (by decide) (by decide) (by decide) (by decide)
    (by decide) (by decide)

/-! ## The output does not depend on the enumeration order -/

theorem sortedHosts_of_enumerations (hosts : Hosts) (keys₁ keys₂ : List GoString)
    (h₁ : keys₁.Nodup ∧ keys₁.toFinset = hosts) (h₂ : keys₂.Nodup ∧ keys₂.toFinset = hosts) :
    sortedHosts keys₁ = sortedHosts keys₂ :=
  sortedHosts_congr keys₁ keys₂
    (List.perm_of_nodup_nodup_toFinset_eq h₁.1 h₂.1 (h₁.2.trans h₂.2.symm))

theorem writeRules_no_fault (rules : List GoString) (file : GoString) :
    writeRules none rules file = (file ++ rules.flatMap ruleLine, none) := by
  induction rules generalizing file with
  | nil => simp [writeRules]
  | cons host rest ih =>
    unfold writeRules
    simp only [fileWrite, ih, List.flatMap_cons, List.append_assoc]

theorem sortedHosts_length (hosts : Hosts) (keys : List GoString)
    (h : keys.Nodup ∧ keys.toFinset = hosts) : (sortedHosts keys).length = hosts.card := by
  rw [(sortedHosts_perm keys).length_eq, ← h.2, List.toFinset_card_of_nodup h.1]

/-- C4: the rule lines of `writeHosts` depend only on the contents of the Domain Set.  For
two enumeration orders of the same set the sorted slices and the rule lines are the same,
`writeHosts` ends in the same state with the same result, and when nothing fails the file
is the preamble, rendered from the time, the size of the set and the sources, followed by
those rule lines: the time of the run is the only other thing the output depends on. -/
theorem writeHosts_order_independent (hosts : Hosts) (keys₁ keys₂ : List GoString)
    (h₁ : keys₁.Nodup ∧ keys₁.toFinset = hosts) (h₂ : keys₂.Nodup ∧ keys₂.toFinset = hosts) :
    sortedHosts keys₁ = sortedHosts keys₂ ∧
      (sortedHosts keys₁).map ruleLine = (sortedHosts keys₂).map ruleLine ∧
      (∀ (env : Env) (sources : List GoString) (st : State), st.hosts = hosts →
        writeHosts { env with rangeHosts := fun _ => keys₁ } sources st =
          writeHosts { env with rangeHosts := fun _ => keys₂ } sources st) ∧
      (∀ (env : Env) (sources : List GoString) (st : State), st.hosts = hosts →
        env.createFault = none → env.writeFault = none →
        (writeHosts { env with rangeHosts := fun _ => keys₁ } sources st).1.hostsTxt =
          some (renderPreamble env.now hosts.card sources ++
            (sortedHosts keys₂).flatMap ruleLine)) := by
  have hs := sortedHosts_of_enumerations hosts keys₁ keys₂ h₁ h₂
  refine ⟨hs, by rw [hs], fun env sources st _ => ?_, fun env sources st _ hc hw => ?_⟩
  · unfold writeHosts
    simp only [hs]
  · unfold writeHosts
    simp only [hc, hw, fileWrite, List.nil_append, writeRules_no_fault, hs,
      sortedHosts_length hosts keys₂ h₂]

/-- Witness for C4: two enumeration orders of a set of three names. -/
theorem writeHosts_order_independent_witness :
    sortedHosts ["b.a".toList, "a.b".toList, "a".toList] =
      sortedHosts ["a".toList, "b.a".toList, "a.b".toList] :=
  (writeHosts_order_independent {"b.a".toList, "a.b".toList, "a".toList}
    ["b.a".toList, "a.b".toList, "a".toList] ["a".toList, "b.a".toList, "a.b".toList]
    ⟨by decide, by decide⟩ ⟨by decide, by decide⟩).1

/-! ## The zero-hosts check -/

/-- C7: on a text that is read without error `processHostsFile` returns the error
`did not find any hosts` exactly when the text has no accepted field; with an accepted
field it returns `nil`, and when every accepted field is in the Domain Set already it
returns `nil` and leaves the set as it was. -/
theorem processHostsFile_no_hosts_iff (contents : Reader) (source : GoString) (hosts : Hosts)
    (hread : (scanLines contents).2 = none) :
    ((processHostsFile contents source hosts).map Prod.snd = some (some errNoHosts) ↔
        acceptedFields contents.text = []) ∧
      (acceptedFields contents.text ≠ [] →
        (processHostsFile contents source hosts).map Prod.snd = some none) ∧
      (acceptedFields contents.text ≠ [] →
        (∀ f ∈ acceptedFields contents.text, f ∈ hosts) →
        processHostsFile contents source hosts = some (hosts, none)) := by
  rw [processHostsFile_readable contents source hosts hread]
  refine ⟨?_, ?_, ?_⟩
  · by_cases hacc : acceptedFields contents.text = []
    · simp [hacc]
    · simp [hacc]
  · intro hacc
    simp [hacc]
  · intro hacc hsub
    rw [if_neg hacc]
    have hunion : hosts ∪ (acceptedFields contents.text).toFinset = hosts :=
      Finset.union_eq_left.2 (fun f hf => hsub f (List.mem_toFinset.1 hf))
    rw [hunion]

/-- Witness for C7: the only accepted field of the text is in the Domain Set before the
call. -/
theorem processHostsFile_no_hosts_iff_witness :
    processHostsFile ⟨"# list\n0.0.0.0 a.com # ad server".toList, none⟩ "src".toList
        {"a.com".toList} = some ({"a.com".toList}, none) :=
  (processHostsFile_no_hosts_iff ⟨"# list\n0.0.0.0 a.com # ad server".toList, none⟩
    "src".toList {"a.com".toList} (by decide)).2.2 (by decide) (by decide)

/-! ## The HostEntry invariant -/

theorem acceptedOnLine_valid (line f : GoString) (hf : f ∈ acceptedOnLine line) :
    validHostEntry f = true := by
  unfold acceptedOnLine at hf
  have hne := scanWords_ne_nil line
  cases hw : scanWords line with
  | nil => rw [hw] at hf; simp at hf
  | cons first rest =>
    rw [hw] at hf hne
    simp only at hf
    split at hf
    · obtain ⟨hmem, hp⟩ := List.mem_filter.1 hf
      have hrest : f ∈ rest := (List.takeWhile_sublist _).subset hmem
      have hnil : f ≠ [] := hne f (List.mem_cons_of_mem _ hrest)
      unfold validHostEntry
      rw [Bool.and_assoc, Bool.and_eq_true]
      exact ⟨decide_eq_true hnil, hp⟩
    · simp at hf

theorem addSites_mem (sites : List GoString) (hosts : Hosts) (e : GoString) :
    e ∈ addSites sites hosts ↔ e ∈ hosts ∨ e ∈ siteEntries sites := by
  induction sites generalizing hosts with
  | nil => simp [addSites, siteEntries]
  | cons url rest ih =>
    unfold addSites
    rw [ih]
    simp only [siteEntries, List.flatMap_cons, Finset.mem_insert, List.mem_append,
      List.mem_cons, List.mem_singleton, List.not_mem_nil, or_false]
    tauto

theorem applyInsertion_invariant (op : Insertion) (hosts : Hosts) :
    ∃ hosts', applyInsertion op hosts = some hosts' ∧
      ∀ e ∈ hosts', e ∈ hosts ∨ validHostEntry e = true ∨ e ∈ edgeEntries [op] := by
  cases op with
  | parse contents source =>
    refine ⟨_, by rw [applyInsertion, processHostsFile_eq]; rfl, fun e he => ?_⟩
    rcases Finset.mem_union.1 he with h | h
    · exact Or.inl h
    · obtain ⟨line, _, hline⟩ := List.mem_flatMap.1 (List.mem_toFinset.1 h)
      exact Or.inr (Or.inl (acceptedOnLine_valid line e hline))
  | edge sites =>
    refine ⟨_, rfl, fun e he => ?_⟩
    rcases (addSites_mem sites hosts e).1 he with h | h
    · exact Or.inl h
    · exact Or.inr (Or.inr (by simpa [edgeEntries] using h))

theorem applyInsertions_invariant (ops : List Insertion) (hosts : Hosts) :
    ∃ hosts', applyInsertions ops hosts = some hosts' ∧
      ∀ e ∈ hosts', e ∈ hosts ∨ validHostEntry e = true ∨ e ∈ edgeEntries ops := by
  induction ops generalizing hosts with
  | nil => exact ⟨hosts, rfl, fun e he => Or.inl he⟩
  | cons op ops ih =>
    obtain ⟨mid, hmid, hinv⟩ := applyInsertion_invariant op hosts
    obtain ⟨last, hlast, hinv'⟩ := ih mid
    refine ⟨last, by rw [applyInsertions, hmid]; exact hlast, fun e he => ?_⟩
    have hcons : ∀ x, x ∈ edgeEntries [op] ∨ x ∈ edgeEntries ops → x ∈ edgeEntries (op :: ops) := by
      intro x hx
      cases op with
      | parse contents source =>
        rcases hx with hx | hx
        · simp [edgeEntries] at hx
        · exact hx
      | edge sites =>
        rcases hx with hx | hx
        · exact List.mem_append_left _ (by simpa [edgeEntries] using hx)
        · exact List.mem_append_right _ hx
    rcases hinv' e he with h | h | h
    · rcases hinv e h with h' | h' | h'
      · exact Or.inl h'
      · exact Or.inr (Or.inl h')
      · exact Or.inr (Or.inr (hcons e (Or.inl h')))
    · exact Or.inr (Or.inl h)
    · exact Or.inr (Or.inr (hcons e (Or.inr h)))

/-- C8, as the code has it: starting from the empty set, a sequence of `processHostsFile`
and `addMSEdgeBlockList` insertions never panics, and afterwards every entry is non-empty,
not an IP literal and not ending in `.001com`, unless it is one of the strings
`addMSEdgeBlockList` inserted (a site `url` or `www.` before it), which are inserted
without validation. -/
theorem hostEntry_invariant (ops : List Insertion) :
    ∃ hosts', applyInsertions ops ∅ = some hosts' ∧
      ∀ e ∈ hosts', validHostEntry e = true ∨ e ∈ edgeEntries ops := by
  obtain ⟨hosts', hrun, hinv⟩ := applyInsertions_invariant ops ∅
  refine ⟨hosts', hrun, fun e he => ?_⟩
  rcases hinv e he with h | h
  · exact absurd h (Finset.not_mem_empty e)
  · exact h

/-- C8 fails as stated: `addMSEdgeBlockList` on the site list with the urls `""`,
`1.2.3.4` and `001com` leaves an empty entry, an IP literal and a name ending in
`.001com` in the Domain Set. -/
theorem addSites_breaks_invariant :
    applyInsertions [Insertion.edge ["".toList, "1.2.3.4".toList, "001com".toList]] ∅ =
        some {"www.001com".toList, "001com".toList, "www.1.2.3.4".toList, "1.2.3.4".toList,
          "www.".toList, "".toList} ∧
      validHostEntry "".toList = false ∧ validHostEntry "1.2.3.4".toList = false ∧
      validHostEntry "www.001com".toList = false := by
  decide

/-! ## `processSource` and `run` -/

theorem processSource_frame (env : Env) (url : GoString) (st st' : State)
    (res : Option GoString) (h : processSource env url st = some (st', res)) :
    st'.hostsTxt = st.hostsTxt ∧ st'.trace = st.trace ++ [Event.httpGet url] := by
  unfold processSource at h
  cases hget : env.httpGet (requests st.trace) url with
  | error err =>
    rw [hget] at h
    simp only [Option.some.injEq, Prod.mk.injEq] at h
    rw [← h.1]
    exact ⟨rfl, rfl⟩
  | ok resp =>
    rw [hget] at h
    simp only [processHostsFile_eq] at h
    split at h
    · cases h
    · simp only [Option.some.injEq, Prod.mk.injEq] at h
      rw [← h.1]
      exact ⟨rfl, rfl⟩
    · simp only [Option.some.injEq, Prod.mk.injEq] at h
      rw [← h.1]
      exact ⟨rfl, rfl⟩

theorem listedSources_cons (text : GoString) (rest : List GoString) :
    listedSources (text :: rest) =
      if ((trimSpace text).length > 0 && !hasPrefix (trimSpace text) "#".toList) = true then
        trimSpace text :: listedSources rest
      else listedSources rest := by
  unfold listedSources
  rw [List.map_cons, List.filter_cons]

theorem runSources_ok (env : Env) (lines : List GoString) (st st' : State)
    (sources sources' : List GoString)
    (h : runSources env lines (st, sources) = some (st', sources', none)) :
    st'.hostsTxt = st.hostsTxt ∧
      st'.trace = st.trace ++ (listedSources lines).map Event.httpGet ∧
      sources' = sources ++ listedSources lines := by
  induction lines generalizing st sources with
  | nil =>
    simp only [runSources, Option.some.injEq, Prod.mk.injEq, and_true] at h
    obtain ⟨h₁, h₂⟩ := h
    subst h₁
    subst h₂
    simp [listedSources]
  | cons text rest ih =>
    unfold runSources at h
    rw [listedSources_cons]
    simp only at h
    by_cases hl : ((trimSpace text).length > 0 && !hasPrefix (trimSpace text) "#".toList) = true
    · rw [if_pos hl] at h ⊢
      cases hp : processSource env (trimSpace text) st with
      | none => rw [hp] at h; cases h
      | some r =>
        obtain ⟨st₁, res⟩ := r
        rw [hp] at h
        cases res with
        | some err => simp at h
        | none =>
          simp only at h
          obtain ⟨hf, ht⟩ := processSource_frame env _ st st₁ none hp
          obtain ⟨ih₁, ih₂, ih₃⟩ := ih st₁ _ h
          refine ⟨ih₁.trans hf, ?_, ?_⟩
          · rw [ih₂, ht, List.map_cons, List.append_assoc]
            rfl
          · rw [ih₃, List.append_assoc]
            rfl
    · rw [if_neg hl] at h ⊢
      exact ih st sources h

theorem runSources_append_fail (env : Env) (pre : List GoString) (text : GoString)
    (post : List GoString) (st st₁ st₂ : State) (sources sources₁ : List GoString)
    (err : GoString)
    (hlisted : ((trimSpace text).length > 0 && !hasPrefix (trimSpace text) "#".toList) = true)
    (hpre : runSources env pre (st, sources) = some (st₁, sources₁, none))
    (hfail : processSource env (trimSpace text) st₁ = some (st₂, some err)) :
    runSources env (pre ++ text :: post) (st, sources) =
      some (st₂, sources₁,
        some ("error updating source ".toList ++ trimSpace text ++ ": ".toList ++ err)) := by
  induction pre generalizing st sources with
  | nil =>
    simp only [runSources, Option.some.injEq, Prod.mk.injEq, and_true] at hpre
    obtain ⟨h₁, h₂⟩ := hpre
    subst h₁
    subst h₂
    rw [List.nil_append, runSources]
    simp only [hlisted, if_true, hfail]
  | cons line rest ih =>
    rw [List.cons_append, runSources]
    rw [runSources] at hpre
    split
    · rename_i hl
      rw [if_pos hl] at hpre
      cases hp : processSource env (trimSpace line) st with
      | none => rw [hp] at hpre; cases hpre
      | some r =>
        obtain ⟨st', res⟩ := r
        rw [hp] at hpre
        cases res with
        | some e => simp at hpre
        | none => exact ih st' _ hpre
    · rename_i hl
      rw [if_neg hl] at hpre
      exact ih st sources hpre

/-- C9: when the adapter of a listed source fails, all sources listed before it having
succeeded, `run` returns that error; `hosts.txt` is what it was before the run; and the
calls made are the opening of `sources.txt` and the requests for the sources listed up to
the failing one, in order: no later source is fetched and `writeHosts`, which starts with
`os.Create`, is not called. -/
theorem run_fail_fast (env : Env) (st : State) (sourcesFile : Reader)
    (pre : List GoString) (text : GoString) (post : List GoString) (st₁ st₂ : State)
    (sources₁ : List GoString) (err : GoString)
    (hopen : env.sourcesTxt = Except.ok sourcesFile)
    (hlines : (scanLines sourcesFile).1 = pre ++ text :: post)
    (hlisted : ((trimSpace text).length > 0 && !hasPrefix (trimSpace text) "#".toList) = true)
    (hpre : runSources env pre
        ({ st with trace := st.trace ++ [Event.openFile "sources.txt".toList] }, []) =
      some (st₁, sources₁, none))
    (hfail : processSource env (trimSpace text) st₁ = some (st₂, some err)) :
    run env st = some (st₂,
        some ("error updating source ".toList ++ trimSpace text ++ ": ".toList ++ err)) ∧
      st₂.hostsTxt = st.hostsTxt ∧
      st₂.trace = st.trace ++ Event.openFile "sources.txt".toList ::
        ((listedSources pre).map Event.httpGet ++ [Event.httpGet (trimSpace text)]) ∧
      (∀ name, Event.createFile name ∈ st₂.trace → Event.createFile name ∈ st.trace) := by
  obtain ⟨hf₁, ht₁, _⟩ := runSources_ok env pre _ st₁ [] sources₁ hpre
  obtain ⟨hf₂, ht₂⟩ := processSource_frame env _ st₁ st₂ _ hfail
  have htrace : st₂.trace = st.trace ++ Event.openFile "sources.txt".toList ::
      ((listedSources pre).map Event.httpGet ++ [Event.httpGet (trimSpace text)]) := by
    rw [ht₂, ht₁]
    simp only [List.append_assoc, List.singleton_append, List.cons_append, List.nil_append]
  refine ⟨?_, hf₂.trans hf₁, htrace, fun name hmem => ?_⟩
  · unfold run
    simp only [hopen, hlines]
    rw [runSources_append_fail env pre text post _ st₁ st₂ [] sources₁ err hlisted hpre hfail]
  · rw [htrace] at hmem
    simp only [List.mem_append, List.mem_cons, List.mem_map, List.mem_singleton,
      List.not_mem_nil, or_false, reduceCtorEq, false_or, and_false, exists_false] at hmem
    exact hmem

/-- Witness for C9: in the sample run the second of the three listed sources fails; the
run stops with its error, `hosts.txt` keeps its old content, and `http://c` is not
fetched. -/
theorem run_fail_fast_witness :
    run sampleEnv sampleState =
      some (⟨{"a.example".toList}, some "0.0.0.0 old.example\n".toList,
          [Event.openFile "sources.txt".toList, Event.httpGet "http://a".toList,
            Event.httpGet "http://b".toList]⟩,
        some "error updating source http://b: error fetching http://b: connection refused".toList) :=
  (run_fail_fast sampleEnv sampleState
    ⟨"# sources\nhttp://a\n  http://b  \n\nhttp://c\n".toList, none⟩
    ["# sources".toList, "http://a".toList] "  http://b  ".toList [[], "http://c".toList]
    ⟨{"a.example".toList}, some "0.0.0.0 old.example\n".toList,
      [Event.openFile "sources.txt".toList, Event.httpGet "http://a".toList]⟩
    ⟨{"a.example".toList}, some "0.0.0.0 old.example\n".toList,
      [Event.openFile "sources.txt".toList, Event.httpGet "http://a".toList,
        Event.httpGet "http://b".toList]⟩
    ["http://a".toList] "error fetching http://b: connection refused".toList
    rfl (by decide) (by decide) (by decide) (by decide)).1

/-! ## The status of a response -/

theorem isInfix_of_append (a url b : GoString) : url <:+: a ++ url ++ b :=
  ⟨a, b, rfl⟩

/-- C10, as the code has it: `processSource` does not read the status of the response.
It always returns; every error it returns contains the source URL; it returns `nil`
exactly when `http.Get` gives a response, of whatever status, whose body is read without
error and holds an accepted field; and then the accepted fields of the body are added to
the Domain Set. -/
theorem processSource_status_not_read (env : Env) (url : GoString) (st : State) :
    ∃ st' res, processSource env url st = some (st', res) ∧
      (∀ err, res = some err → url <:+: err) ∧
      (res = none ↔
        ∃ resp, env.httpGet (requests st.trace) url = Except.ok resp ∧
          (scanLines resp.body).2 = none ∧ acceptedFields resp.body.text ≠ []) ∧
      (∀ resp, env.httpGet (requests st.trace) url = Except.ok resp → res = none →
        st'.hosts = st.hosts ∪ (acceptedFields resp.body.text).toFinset) := by
  unfold processSource
  cases hget : env.httpGet (requests st.trace) url with
  | error e =>
    refine ⟨_, _, rfl, fun err herr => ?_, ?_, fun _ _ hres => by cases hres⟩
    · simp only [Option.some.injEq] at herr
      rw [← herr, List.append_assoc]
      exact isInfix_of_append _ url _
    · simp
  | ok resp =>
    simp only [processHostsFile_eq]
    cases hread : (scanLines resp.body).2 with
    | some e =>
      refine ⟨_, _, rfl, fun err herr => ?_, ?_, fun _ _ hres => by cases hres⟩
      · simp only [Option.some.injEq] at herr
        rw [← herr, List.append_assoc]
        exact isInfix_of_append _ url _
      · simp [hread]
    | none =>
      have hl := scanLines_ok resp.body hread
      by_cases hacc : acceptedFields resp.body.text = []
      · have h0 : ((scanLines resp.body).1.flatMap acceptedOnLine).length = 0 := by
          rw [hl]; exact List.length_eq_zero.2 hacc
        simp only [h0, if_true]
        refine ⟨_, _, rfl, fun err herr => ?_, ?_, fun _ _ hres => by cases hres⟩
        · simp only [Option.some.injEq] at herr
          rw [← herr, List.append_assoc]
          exact isInfix_of_append _ url _
        · simp [hread, hacc]
      · have h0 : ¬ ((scanLines resp.body).1.flatMap acceptedOnLine).length = 0 := by
          rw [hl]; exact fun h => hacc (List.length_eq_zero.1 h)
        simp only [h0, if_false]
        refine ⟨_, _, rfl, fun err herr => ?_, ?_, fun resp' hresp _ => ?_⟩
        · cases herr
        · simp [hread, hacc]
        · cases hresp
          show st.hosts ∪ ((scanLines resp.body).1.flatMap acceptedOnLine).toFinset = _
          rw [hl]
          rfl

/-- C10 fails as stated: in the sample environment `http://c` answers with status 404 and
a body that holds a `0.0.0.0` line; `processSource` returns `nil` and the host of the body
is in the Domain Set. -/
theorem processSource_accepts_not_found :
    (sampleEnv.httpGet 0 "http://c".toList).map Response.statusCode = Except.ok 404 ∧
      processSource sampleEnv "http://c".toList sampleState =
        some (⟨{"c.example".toList}, some "0.0.0.0 old.example\n".toList,
          [Event.httpGet "http://c".toList]⟩, none) := by
  constructor
  · rfl
  · decide

/-! ## Lines longer than the buffer of the scanner -/

theorem splitLines_append_newline (p cur rest : GoString) (hp : '\n' ∉ p) :
    splitLines cur (p ++ '\n' :: rest) = (cur.reverse ++ p) :: splitLines [] rest := by
  induction p generalizing cur with
  | nil => simp [splitLines]
  | cons c cs ih =>
    have hc : c ≠ '\n' := fun e => hp (by rw [e]; exact List.mem_cons_self _ _)
    have hcs : '\n' ∉ cs := fun h => hp (List.mem_cons_of_mem _ h)
    rw [List.cons_append, splitLines, if_neg hc, ih (c :: cur) hcs]
    simp

theorem newline_not_mem_longComment (n : Nat) : '\n' ∉ longComment n := by
  unfold longComment
  intro h
  rcases List.mem_cons.1 h with h | h
  · exact absurd h (by decide)
  · rcases List.mem_cons.1 h with h | h
    · exact absurd h (by decide)
    · exact absurd (List.eq_of_mem_replicate h) (by decide)

theorem byteLen_replicate_x (n : Nat) : byteLen (List.replicate n 'x') = n := by
  induction n with
  | zero => rfl
  | succ n ih =>
    unfold byteLen at ih ⊢
    rw [List.replicate_succ, List.map_cons, List.sum_cons, ih]
    have : Char.utf8Size 'x' = 1 := by decide
    omega

theorem byteLen_longComment (n : Nat) : byteLen (longComment n) = n + 2 := by
  have h := byteLen_replicate_x n
  unfold byteLen at h ⊢
  unfold longComment
  rw [List.map_cons, List.map_cons, List.sum_cons, List.sum_cons, h]
  have h₁ : Char.utf8Size '#' = 1 := by decide
  have h₂ : Char.utf8Size ' ' = 1 := by decide
  omega

theorem longComment_not_fit : decide (byteLen (longComment 65536) < maxScanTokenSize) = false := by
  rw [byteLen_longComment]
  decide

theorem splitLines_longSourcesTxt :
    splitLines [] longSourcesTxt =
      ["http://a".toList, longComment 65536, "http://d".toList] := by
  unfold longSourcesTxt
  rw [splitLines_append_newline _ _ _ (by decide),
    splitLines_append_newline _ _ _ (newline_not_mem_longComment _)]
  have h : splitLines [] "http://d\n".toList = ["http://d".toList] := by decide
  rw [h]
  rfl

theorem scanLines_longSourcesTxt :
    scanLines ⟨longSourcesTxt, none⟩ = (["http://a".toList], some errTooLong) := by
  unfold scanLines
  simp only [splitLines_longSourcesTxt]
  have h₁ : decide (byteLen "http://a".toList < maxScanTokenSize) = true := by decide
  rw [List.takeWhile_cons, h₁, if_pos rfl, List.takeWhile_cons, longComment_not_fit]
  decide

/-! ## The source list of the header -/

theorem siftLeft_sorted_strict {α : Type} {lt : α → α → Bool} (h : IsStrictTotal lt)
    (x : α) (done : List α) (hd : done.Pairwise (fun u v => lt u v = false)) :
    (siftLeft lt x done).Pairwise (fun u v => lt u v = false) := by
  induction done with
  | nil => exact List.pairwise_singleton _ _
  | cons y before ih =>
    rw [List.pairwise_cons] at hd
    unfold siftLeft
    by_cases hxy : lt x y = true
    · rw [if_pos hxy, List.pairwise_cons]
      refine ⟨fun v hv => ?_, ih hd.2⟩
      rcases List.mem_cons.1 ((siftLeft_perm lt x before).mem_iff.1 hv) with hv | hv
      · rw [hv]; exact h.asymm x y hxy
      · exact hd.1 v hv
    · rw [if_neg hxy]
      have hxy' : lt x y = false := Bool.eq_false_iff.2 hxy
      refine List.pairwise_cons.2 ⟨fun v hv => ?_, List.pairwise_cons.2 hd⟩
      rcases List.mem_cons.1 hv with hv | hv
      · rw [hv]; exact hxy'
      · exact h.le_trans v y x (hd.1 v hv) hxy'

theorem insertionSort_sorted_strict {α : Type} {lt : α → α → Bool} (h : IsStrictTotal lt)
    (done rest : List α) (hd : done.Pairwise (fun u v => lt u v = false)) :
    (insertionSort lt done rest).Pairwise (fun a b => lt b a = false) := by
  induction rest generalizing done with
  | nil =>
    unfold insertionSort
    exact List.pairwise_reverse.2 hd
  | cons x rest ih =>
    unfold insertionSort
    exact ih _ (siftLeft_sorted_strict h x done hd)

theorem sortStrings_eq (data : List GoString) : sortStrings data = sortSlice labelLt data := by
  unfold sortStrings
  congr 1
  funext a b
  exact stringsCompare_neg a b

theorem sortStrings_perm (data : List GoString) : (sortStrings data).Perm data :=
  sortSlice_perm _ data

theorem sortStrings_sorted (data : List GoString) :
    (sortStrings data).Pairwise (fun a b => labelLt b a = false) := by
  rw [sortStrings_eq]
  exact insertionSort_sorted_strict labelLt_strictTotal [] data List.Pairwise.nil

theorem run_of_steps (env : Env) (st : State) (sourcesFile : Reader) (st₁ st₂ st₃ st₄ : State)
    (sources : List GoString) (hopen : env.sourcesTxt = Except.ok sourcesFile)
    (h₁ : runSources env (scanLines sourcesFile).1
        ({ st with trace := st.trace ++ [Event.openFile "sources.txt".toList] }, []) =
      some (st₁, sources, none))
    (h₂ : readExtras env st₁ = some (st₂, none))
    (h₃ : addMSEdgeBlockList env st₂ = (st₃, none))
    (h₄ : writeHosts env (sortStrings sources) st₃ = (st₄, none)) :
    run env st = some (st₄, none) := by
  unfold run
  simp only [hopen, h₁, h₂, h₃, h₄]

theorem run_ok_steps (env : Env) (st st' : State) (sourcesFile : Reader)
    (hopen : env.sourcesTxt = Except.ok sourcesFile) (hrun : run env st = some (st', none)) :
    ∃ st₁ st₂ st₃,
      runSources env (scanLines sourcesFile).1
          ({ st with trace := st.trace ++ [Event.openFile "sources.txt".toList] }, []) =
        some (st₁, listedSources (scanLines sourcesFile).1, none) ∧
      readExtras env st₁ = some (st₂, none) ∧
      addMSEdgeBlockList env st₂ = (st₃, none) ∧
      writeHosts env (sortStrings (listedSources (scanLines sourcesFile).1)) st₃ =
        (st', none) := by
  unfold run at hrun
  simp only [hopen] at hrun
  split at hrun
  · cases hrun
  · simp at hrun
  · rename_i st₁ sources h₁
    have hsrc := (runSources_ok env _ _ st₁ [] sources h₁).2.2
    rw [List.nil_append] at hsrc
    subst hsrc
    split at hrun
    · cases hrun
    · simp at hrun
    · rename_i st₂ h₂
      split at hrun
      · simp at hrun
      · rename_i st₃ h₃
        split at hrun
        · simp at hrun
        · rename_i st₄ h₄
          simp only [Option.some.injEq, Prod.mk.injEq, and_true] at hrun
          subst hrun
          exact ⟨st₁, st₂, st₃, h₁, h₂, h₃, h₄⟩

theorem writeHosts_no_fault (env : Env) (sources : List GoString) (st : State)
    (hc : env.createFault = none) (hw : env.writeFault = none) :
    writeHosts env sources st =
      (⟨st.hosts,
          some (renderPreamble env.now (sortedHosts (env.rangeHosts st.hosts)).length sources ++
            (sortedHosts (env.rangeHosts st.hosts)).flatMap ruleLine),
          st.trace ++ [Event.createFile "hosts.txt".toList]⟩, none) := by
  unfold writeHosts
  simp only [hc, hw, fileWrite, List.nil_append, writeRules_no_fault]

theorem run_header_sources (env : Env) (st st' : State) (sourcesFile : Reader)
    (hopen : env.sourcesTxt = Except.ok sourcesFile)
    (hread : (scanLines sourcesFile).2 = none)
    (hrun : run env st = some (st', none)) :
    ∃ st₃, writeHosts env (sortStrings (listedSources (textLines sourcesFile.text))) st₃ =
        (st', none) ∧
      (sortStrings (listedSources (textLines sourcesFile.text))).Perm
        (listedSources (textLines sourcesFile.text)) ∧
      (sortStrings (listedSources (textLines sourcesFile.text))).Pairwise
        (fun a b => labelLt b a = false) := by
  obtain ⟨_, _, st₃, _, _, _, h₄⟩ := run_ok_steps env st st' sourcesFile hopen hrun
  rw [scanLines_ok sourcesFile hread] at h₄
  exact ⟨st₃, h₄, sortStrings_perm _, sortStrings_sorted _⟩

/-- C11 fails on the code: `run` does not look at `scanner.Err()` of the scanner of
`sources.txt`.  With the three lines `http://a`, a comment longer than the buffer of the
scanner, `http://d`, the run succeeds, only `http://a` is fetched and named in the header
of `hosts.txt`, and `http://d`, a listed line of the file, is left out. -/
theorem run_truncates_source_list :
    run longLineEnv sampleState =
        some (⟨{"a.example".toList},
            some (renderPreamble longLineEnv.now 1 ["http://a".toList] ++
              ruleLine "a.example".toList),
            [Event.openFile "sources.txt".toList, Event.httpGet "http://a".toList,
              Event.openFile "extras.txt".toList, Event.httpGet msEdgeURL,
              Event.createFile "hosts.txt".toList]⟩, none) ∧
      "http://d".toList ∈ listedSources (textLines longSourcesTxt) := by
  constructor
  · refine run_of_steps longLineEnv sampleState ⟨longSourcesTxt, none⟩
      ⟨{"a.example".toList}, some "0.0.0.0 old.example\n".toList,
        [Event.openFile "sources.txt".toList, Event.httpGet "http://a".toList]⟩
      ⟨{"a.example".toList}, some "0.0.0.0 old.example\n".toList,
        [Event.openFile "sources.txt".toList, Event.httpGet "http://a".toList,
          Event.openFile "extras.txt".toList]⟩
      ⟨{"a.example".toList}, some "0.0.0.0 old.example\n".toList,
        [Event.openFile "sources.txt".toList, Event.httpGet "http://a".toList,
          Event.openFile "extras.txt".toList, Event.httpGet msEdgeURL]⟩
      _ ["http://a".toList] rfl ?_ (by decide) (by decide) ?_
    · rw [scanLines_longSourcesTxt]
      decide
    · rw [writeHosts_no_fault _ _ _ rfl rfl]
      have hr : longLineEnv.rangeHosts {"a.example".toList} = ["a.example".toList] :=
        Finset.sort_singleton _ _
      have hs : sortedHosts ["a.example".toList] = ["a.example".toList] := by decide
      have hss : sortStrings ["http://a".toList] = ["http://a".toList] := by decide
      simp only [hr, hs, hss, List.length_singleton, List.flatMap_cons, List.flatMap_nil,
        List.append_nil]
      rfl
  · unfold listedSources textLines
    rw [splitLines_longSourcesTxt]
    refine List.mem_filter.2 ⟨List.mem_map.2 ⟨"http://d".toList, ?_, by decide⟩, by decide⟩
    refine List.mem_map.2 ⟨"http://d".toList, ?_, by decide⟩
    simp

/-! ## The block list -/

theorem addSites_eq (sites : List GoString) (hosts : Hosts) :
    addSites sites hosts = hosts ∪ (siteEntries sites).toFinset := by
  ext e
  rw [addSites_mem, Finset.mem_union, List.mem_toFinset]

theorem mem_siteEntries (sites : List GoString) (u : GoString) (hu : u ∈ sites) :
    u ∈ siteEntries sites ∧ "www.".toList ++ u ∈ siteEntries sites := by
  unfold siteEntries
  constructor
  · exact List.mem_flatMap.2 ⟨u, hu, List.mem_cons_self _ _⟩
  · exact List.mem_flatMap.2 ⟨u, hu, List.mem_cons_of_mem _ (List.mem_cons_self _ _)⟩

theorem addMSEdgeBlockList_of_decoded (env : Env) (st : State) (resp : Response)
    (sites : List GoString)
    (hget : env.httpGet (requests st.trace) msEdgeURL = Except.ok resp)
    (hdec : env.jsonDecode resp.body = Except.ok sites) :
    addMSEdgeBlockList env st =
      (⟨addSites sites st.hosts, st.hostsTxt, st.trace ++ [Event.httpGet msEdgeURL]⟩, none) := by
  unfold addMSEdgeBlockList
  simp only [hget, hdec]

/-- C12: when `addMSEdgeBlockList` returns `nil`, the response was decoded into a site
list and the Domain Set is the prior set united with, for each site `url`, the `url` and
`www.` followed by it; and where the body `{"sites":[{"url":"bad.example"}]}` is decoded
into its one site, `bad.example` and `www.bad.example` are in the Domain Set. -/
theorem addMSEdgeBlockList_inserts :
    (∀ (env : Env) (st st' : State), addMSEdgeBlockList env st = (st', none) →
      ∃ resp sites, env.httpGet (requests st.trace) msEdgeURL = Except.ok resp ∧
        env.jsonDecode resp.body = Except.ok sites ∧
        st'.hosts = st.hosts ∪ (siteEntries sites).toFinset ∧
        ∀ u ∈ sites, u ∈ st'.hosts ∧ "www.".toList ++ u ∈ st'.hosts) ∧
      (∀ (env : Env) (st : State) (resp : Response),
        env.httpGet (requests st.trace) msEdgeURL = Except.ok resp →
        resp.body.text = blocklistJSON →
        env.jsonDecode resp.body = Except.ok ["bad.example".toList] →
        (addMSEdgeBlockList env st).2 = none ∧
          "bad.example".toList ∈ (addMSEdgeBlockList env st).1.hosts ∧
          "www.bad.example".toList ∈ (addMSEdgeBlockList env st).1.hosts) := by
  constructor
  · intro env st st' h
    unfold addMSEdgeBlockList at h
    cases hget : env.httpGet (requests st.trace) msEdgeURL with
    | error e => rw [hget] at h; simp at h
    | ok resp =>
      cases hdec : env.jsonDecode resp.body with
      | error e => rw [hget] at h; simp [hdec] at h
      | ok sites =>
        rw [hget] at h
        simp only [hdec, Prod.mk.injEq, and_true] at h
        subst h
        refine ⟨resp, sites, rfl, hdec, addSites_eq sites st.hosts, fun u hu => ?_⟩
        simp only [addSites_eq, Finset.mem_union, List.mem_toFinset]
        exact ⟨Or.inr (mem_siteEntries sites u hu).1, Or.inr (mem_siteEntries sites u hu).2⟩
  · intro env st resp hget _ hdec
    rw [addMSEdgeBlockList_of_decoded env st resp _ hget hdec]
    refine ⟨rfl, ?_, ?_⟩
    · exact (addSites_mem _ _ _).2 (Or.inr (by decide))
    · exact (addSites_mem _ _ _).2 (Or.inr (by decide))

/-- Witness for C12: the sample block list, added to a Domain Set that holds one name. -/
theorem addMSEdgeBlockList_inserts_witness :
    (addMSEdgeBlockList blocklistEnv ⟨{"a.example".toList}, none, []⟩).2 = none ∧
      "bad.example".toList ∈
        (addMSEdgeBlockList blocklistEnv ⟨{"a.example".toList}, none, []⟩).1.hosts ∧
      "www.bad.example".toList ∈
        (addMSEdgeBlockList blocklistEnv ⟨{"a.example".toList}, none, []⟩).1.hosts :=
  addMSEdgeBlockList_inserts.2 blocklistEnv ⟨{"a.example".toList}, none, []⟩
    ⟨200, ⟨blocklistJSON, none⟩⟩ rfl rfl (by simp [blocklistEnv])

/-! ## The rule lines -/

theorem fileWrite_ok (writeFault : Option (Nat × GoString)) (file data file' : GoString)
    (h : fileWrite writeFault file data = (file', none)) : file' = file ++ data := by
  unfold fileWrite at h
  cases writeFault with
  | none =>
    simp only [Prod.mk.injEq, and_true] at h
    exact h.symm
  | some fault =>
    obtain ⟨room, err⟩ := fault
    simp only at h
    split at h
    · simp only [Prod.mk.injEq, and_true] at h
      exact h.symm
    · simp at h

theorem writeRules_ok (writeFault : Option (Nat × GoString)) (rules : List GoString)
    (file file' : GoString) (h : writeRules writeFault rules file = (file', none)) :
    file' = file ++ rules.flatMap ruleLine := by
  induction rules generalizing file with
  | nil =>
    simp only [writeRules, Prod.mk.injEq, and_true] at h
    simp [h]
  | cons host rest ih =>
    unfold writeRules at h
    cases hw : fileWrite writeFault file (ruleLine host) with
    | mk mid res =>
      rw [hw] at h
      cases res with
      | some err => simp at h
      | none =>
        simp only at h
        rw [ih mid h, fileWrite_ok _ _ _ _ hw, List.flatMap_cons, List.append_assoc]

theorem writeHosts_ok (env : Env) (sources : List GoString) (st st' : State)
    (h : writeHosts env sources st = (st', none)) :
    st'.hostsTxt =
      some (renderPreamble env.now (sortedHosts (env.rangeHosts st.hosts)).length sources ++
        (sortedHosts (env.rangeHosts st.hosts)).flatMap ruleLine) := by
  unfold writeHosts at h
  cases hc : env.createFault with
  | some err => rw [hc] at h; simp at h
  | none =>
    rw [hc] at h
    simp only at h
    cases hp : fileWrite env.writeFault []
        (renderPreamble env.now (sortedHosts (env.rangeHosts st.hosts)).length sources) with
    | mk file res =>
      rw [hp] at h
      cases res with
      | some err => simp at h
      | none =>
        simp only at h
        cases hr : writeRules env.writeFault (sortedHosts (env.rangeHosts st.hosts)) file with
        | mk file' res' =>
          rw [hr] at h
          cases res' with
          | some err => simp at h
          | none =>
            simp only [Prod.mk.injEq, and_true] at h
            rw [← h]
            simp only
            rw [writeRules_ok _ _ _ _ hr, fileWrite_ok _ _ _ _ hp, List.nil_append]

theorem splitLines_append_after_newline (a cur b : GoString) :
    splitLines cur (a ++ '\n' :: b) = splitLines cur (a ++ ['\n']) ++ splitLines [] b := by
  induction a generalizing cur with
  | nil => simp [splitLines]
  | cons c cs ih =>
    rw [List.cons_append, List.cons_append, splitLines, splitLines]
    by_cases hc : c = '\n'
    · rw [if_pos hc, if_pos hc, ih, List.cons_append]
    · rw [if_neg hc, if_neg hc, ih]

theorem splitLines_rules (hosts : List GoString) (hnl : ∀ host ∈ hosts, '\n' ∉ host) :
    splitLines [] (hosts.flatMap ruleLine) = hosts.map blockingRule := by
  induction hosts with
  | nil => rfl
  | cons host rest ih =>
    have hp : '\n' ∉ blockingRule host := by
      unfold blockingRule
      intro h
      rcases List.mem_append.1 h with h | h
      · exact absurd h (by decide)
      · exact hnl host (List.mem_cons_self _ _) h
    have hr : ruleLine host ++ rest.flatMap ruleLine =
        blockingRule host ++ '\n' :: rest.flatMap ruleLine := by
      unfold ruleLine blockingRule
      simp
    rw [List.flatMap_cons, hr, splitLines_append_newline _ _ _ hp,
      ih (fun h hh => hnl h (List.mem_cons_of_mem _ hh)), List.map_cons]
    rfl

theorem digitChar_ne_newline (d : Nat) : Nat.digitChar d ≠ '\n' := by
  by_cases h : d < 16
  · interval_cases d <;> decide
  · have h' : Nat.digitChar d = '*' := by
      unfold Nat.digitChar
      repeat (rw [if_neg (by omega)])
    rw [h']
    decide

theorem toDigitsCore_no_newline (base fuel n : Nat) (ds : List Char) (hds : '\n' ∉ ds) :
    '\n' ∉ Nat.toDigitsCore base fuel n ds := by
  induction fuel generalizing n ds with
  | zero => exact hds
  | succ fuel ih =>
    have hcons : '\n' ∉ Nat.digitChar (n % base) :: ds := by
      intro h
      rcases List.mem_cons.1 h with h | h
      · exact digitChar_ne_newline _ h.symm
      · exact hds h
    unfold Nat.toDigitsCore
    simp only
    split
    · exact hcons
    · exact ih _ _ hcons

theorem repr_no_newline (n : Nat) : '\n' ∉ (Nat.repr n).toList :=
  toDigitsCore_no_newline 10 (n + 1) n [] (List.not_mem_nil _)

theorem splitLines_preamble_head (date count rest : GoString) (hd : '\n' ∉ date)
    (hc : '\n' ∉ count) :
    splitLines [] ("\n# Amalgamated hosts file\n#\n# This is a hosts file generated from various sources.\n#\n# Date: ".toList
        ++ date ++ "\n# Number of unique domains: ".toList ++ count ++ '\n' :: rest) =
      [[], "# Amalgamated hosts file".toList, "#".toList,
        "# This is a hosts file generated from various sources.".toList, "#".toList,
        "# Date: ".toList ++ date, "# Number of unique domains: ".toList ++ count] ++
        splitLines [] rest := by
  have e : "\n# Amalgamated hosts file\n#\n# This is a hosts file generated from various sources.\n#\n# Date: ".toList
        ++ date ++ "\n# Number of unique domains: ".toList ++ count ++ '\n' :: rest =
      [] ++ '\n' :: ("# Amalgamated hosts file".toList ++ '\n' :: ("#".toList ++ '\n' ::
        ("# This is a hosts file generated from various sources.".toList ++ '\n' ::
          ("#".toList ++ '\n' :: (("# Date: ".toList ++ date) ++ '\n' ::
            (("# Number of unique domains: ".toList ++ count) ++ '\n' :: rest)))))) := by
    have h₁ : "\n# Amalgamated hosts file\n#\n# This is a hosts file generated from various sources.\n#\n# Date: ".toList =
        '\n' :: ("# Amalgamated hosts file".toList ++ '\n' :: ("#".toList ++ '\n' ::
          ("# This is a hosts file generated from various sources.".toList ++ '\n' ::
            ("#".toList ++ '\n' :: "# Date: ".toList)))) := by decide
    have h₂ : "\n# Number of unique domains: ".toList =
        '\n' :: "# Number of unique domains: ".toList := by decide
    rw [h₁, h₂]
    simp only [List.append_assoc, List.cons_append, List.nil_append]
  have hdate : '\n' ∉ "# Date: ".toList ++ date := by
    intro h
    rcases List.mem_append.1 h with h | h
    · exact absurd h (by decide)
    · exact hd h
  have hcount : '\n' ∉ "# Number of unique domains: ".toList ++ count := by
    intro h
    rcases List.mem_append.1 h with h | h
    · exact absurd h (by decide)
    · exact hc h
  rw [e, splitLines_append_newline [] [] _ (List.not_mem_nil _),
    splitLines_append_newline _ [] _ (by decide), splitLines_append_newline _ [] _ (by decide),
    splitLines_append_newline _ [] _ (by decide), splitLines_append_newline _ [] _ (by decide),
    splitLines_append_newline _ [] _ hdate, splitLines_append_newline _ [] _ hcount]
  simp only [List.reverse_nil, List.nil_append, List.cons_append]

set_option maxRecDepth 20000 in
theorem preambleTail_ends_with_newline :
    preambleTail.toList = preambleTail.toList.dropLast ++ ['\n'] := by
  decide

theorem renderPreamble_head (date : GoString) (count : Nat) (sources : List GoString)
    (rest : GoString) (hd : '\n' ∉ date) :
    (splitLines [] (renderPreamble date count sources ++ rest)).take 7 =
      [[], "# Amalgamated hosts file".toList, "#".toList,
        "# This is a hosts file generated from various sources.".toList, "#".toList,
        "# Date: ".toList ++ date,
        "# Number of unique domains: ".toList ++ (Nat.repr count).toList] := by
  have e : renderPreamble date count sources ++ rest =
      "\n# Amalgamated hosts file\n#\n# This is a hosts file generated from various sources.\n#\n# Date: ".toList
        ++ date ++ "\n# Number of unique domains: ".toList ++ (Nat.repr count).toList ++
        '\n' :: ("#\n# Included hosts lists:".toList
          ++ sources.flatMap (fun source => "\n# ".toList ++ source)
          ++ preambleTail.toList ++ rest) := by
    unfold renderPreamble
    have h : "\n#\n# Included hosts lists:".toList =
        '\n' :: "#\n# Included hosts lists:".toList := by decide
    rw [h]
    simp only [List.append_assoc, List.cons_append]
  rw [e, splitLines_preamble_head _ _ _ hd (repr_no_newline count)]
  rfl

theorem splitLines_file (date : GoString) (count : Nat) (sources hosts : List GoString)
    (hnl : ∀ host ∈ hosts, '\n' ∉ host) :
    splitLines [] (renderPreamble date count sources ++ hosts.flatMap ruleLine) =
      splitLines [] (renderPreamble date count sources) ++ hosts.map blockingRule := by
  have e : ∀ rest, renderPreamble date count sources ++ rest =
      ("\n# Amalgamated hosts file\n#\n# This is a hosts file generated from various sources.\n#\n# Date: ".toList
        ++ date ++ "\n# Number of unique domains: ".toList ++ (Nat.repr count).toList
        ++ "\n#\n# Included hosts lists:".toList
        ++ sources.flatMap (fun source => "\n# ".toList ++ source)
        ++ preambleTail.toList.dropLast) ++ '\n' :: rest := by
    intro rest
    unfold renderPreamble
    nth_rewrite 1 [preambleTail_ends_with_newline]
    simp only [List.append_assoc, List.cons_append, List.nil_append]
  have e' := e []
  rw [List.append_nil] at e'
  rw [e, splitLines_append_after_newline, splitLines_rules hosts hnl, e']

/-- C13, as the code has it: when no entry of the Domain Set contains a line feed and
`writeHosts` returns `nil`, the lines of the file are the lines of the preamble followed
by exactly one line `0.0.0.0 <domain>` per entry, each entry once, in comparator order;
the seventh line of the file is `# Number of unique domains: ` with the decimal number of
rule lines, which is the size of the Domain Set. -/
theorem writeHosts_rule_lines (env : Env) (sources : List GoString) (st st' : State)
    (henum : (env.rangeHosts st.hosts).Nodup ∧ (env.rangeHosts st.hosts).toFinset = st.hosts)
    (hnl : ∀ host ∈ st.hosts, '\n' ∉ host) (hdate : '\n' ∉ env.now)
    (hok : writeHosts env sources st = (st', none)) :
    st'.hostsTxt.map (splitLines []) =
        some (splitLines [] (renderPreamble env.now st.hosts.card sources) ++
          (sortedHosts (env.rangeHosts st.hosts)).map blockingRule) ∧
      st'.hostsTxt.map (fun file => (splitLines [] file).take 7) =
        some [[], "# Amalgamated hosts file".toList, "#".toList,
          "# This is a hosts file generated from various sources.".toList, "#".toList,
          "# Date: ".toList ++ env.now,
          "# Number of unique domains: ".toList ++
            (Nat.repr ((sortedHosts (env.rangeHosts st.hosts)).map blockingRule).length).toList] ∧
      (sortedHosts (env.rangeHosts st.hosts)).Nodup ∧
      (∀ host, host ∈ sortedHosts (env.rangeHosts st.hosts) ↔ host ∈ st.hosts) ∧
      (sortedHosts (env.rangeHosts st.hosts)).Pairwise
        (fun a b => less a b = true ∧ less b a = false) ∧
      ((sortedHosts (env.rangeHosts st.hosts)).map blockingRule).length = st.hosts.card := by
  have hperm := sortedHosts_perm (env.rangeHosts st.hosts)
  have hnodup : (sortedHosts (env.rangeHosts st.hosts)).Nodup := hperm.nodup_iff.2 henum.1
  have hlen := sortedHosts_length st.hosts _ henum
  have hmem : ∀ host, host ∈ sortedHosts (env.rangeHosts st.hosts) ↔ host ∈ st.hosts := by
    intro host
    rw [hperm.mem_iff, ← List.mem_toFinset, henum.2]
  have hfile := writeHosts_ok env sources st st' hok
  rw [hlen] at hfile
  refine ⟨?_, ?_, hnodup, hmem, ?_, ?_⟩
  · rw [hfile, Option.map_some',
      splitLines_file _ _ _ _ (fun host hh => hnl host ((hmem host).1 hh))]
  · rw [hfile, Option.map_some', renderPreamble_head _ _ _ _ hdate, List.length_map, hlen]
  · refine (List.Pairwise.and hnodup (sortedHosts_sorted _)).imp ?_
    intro a b hab
    refine ⟨hab.2, ?_⟩
    have h := less_of_ne b a (fun e => hab.1 e.symm)
    rw [hab.2] at h
    exact h
  · rw [List.length_map, hlen]

/-- Witness for C13: a Domain Set of two names, written without any failure. -/
theorem writeHosts_rule_lines_witness :
    (sortedHosts ["b.example".toList, "a.example".toList]).Pairwise
        (fun a b => less a b = true ∧ less b a = false) ∧
      ((sortedHosts ["b.example".toList, "a.example".toList]).map blockingRule).length =
        Finset.card {"b.example".toList, "a.example".toList} :=
  (writeHosts_rule_lines
    { sampleEnv with rangeHosts := fun _ => ["b.example".toList, "a.example".toList] }
    ["http://a".toList] ⟨{"b.example".toList, "a.example".toList}, none, []⟩ _
    ⟨by decide, by decide⟩ (by decide) (by decide)
    (writeHosts_no_fault _ _ _ rfl rfl)).2.2.2.2

/-- C13 fails as stated: `addMSEdgeBlockList` on the one site `x`, line feed, `0.0.0.0 y`
leaves two entries in the Domain Set; `writeHosts` returns `nil`, the header counts 2, and
the rule lines are the four lines `0.0.0.0 x`, `0.0.0.0 y`, `0.0.0.0 www.x`, `0.0.0.0 y`,
two of them for a name `y` that is no entry. -/
theorem writeHosts_entry_with_line_feed :
    applyInsertions [Insertion.edge ["x\n0.0.0.0 y".toList]] ∅ =
        some {"www.x\n0.0.0.0 y".toList, "x\n0.0.0.0 y".toList} ∧
      Finset.card {"www.x\n0.0.0.0 y".toList, "x\n0.0.0.0 y".toList} = 2 ∧
      writeHosts
          { sampleEnv with
            rangeHosts := fun _ => ["www.x\n0.0.0.0 y".toList, "x\n0.0.0.0 y".toList] }
          ["http://a".toList]
          ⟨{"www.x\n0.0.0.0 y".toList, "x\n0.0.0.0 y".toList}, none, []⟩ =
        (⟨{"www.x\n0.0.0.0 y".toList, "x\n0.0.0.0 y".toList},
            some (renderPreamble sampleEnv.now 2 ["http://a".toList] ++
              "0.0.0.0 x\n0.0.0.0 y\n0.0.0.0 www.x\n0.0.0.0 y\n".toList),
            [Event.createFile "hosts.txt".toList]⟩, none) ∧
      splitLines [] "0.0.0.0 x\n0.0.0.0 y\n0.0.0.0 www.x\n0.0.0.0 y\n".toList =
        ["0.0.0.0 x".toList, "0.0.0.0 y".toList, "0.0.0.0 www.x".toList,
          "0.0.0.0 y".toList] ∧
      "y".toList ∉ ({"www.x\n0.0.0.0 y".toList, "x\n0.0.0.0 y".toList} : Hosts) := by
  refine ⟨by decide, by decide, ?_, by decide, by decide⟩
  rw [writeHosts_no_fault _ _ _ rfl rfl]
  have hs : sortedHosts ["www.x\n0.0.0.0 y".toList, "x\n0.0.0.0 y".toList] =
      ["x\n0.0.0.0 y".toList, "www.x\n0.0.0.0 y".toList] := by decide
  have hr : ["x\n0.0.0.0 y".toList, "www.x\n0.0.0.0 y".toList].flatMap ruleLine =
      "0.0.0.0 x\n0.0.0.0 y\n0.0.0.0 www.x\n0.0.0.0 y\n".toList := by decide
  simp only [hs, hr, List.length_cons, List.length_nil]
  rfl

/-! ## Lines that do not start with `0.0.0.0` -/

theorem acceptedOnLine_of_ignored (line : GoString) (h : ignoredLine line = true) :
    acceptedOnLine line = [] := by
  unfold ignoredLine at h
  unfold acceptedOnLine
  cases hw : scanWords line with
  | nil => rfl
  | cons first rest =>
    rw [hw] at h
    simp only [List.head?_cons, ne_eq, Option.some.injEq, decide_eq_true_eq] at h
    simp only [h, if_false]

theorem flatMap_acceptedOnLine_filter (lines : List GoString) :
    (lines.filter (fun line => !ignoredLine line)).flatMap acceptedOnLine =
      lines.flatMap acceptedOnLine := by
  induction lines with
  | nil => rfl
  | cons line rest ih =>
    rw [List.filter_cons]
    cases hi : ignoredLine line with
    | true =>
      simp only [Bool.not_true, Bool.false_eq_true, if_false, List.flatMap_cons, ih,
        acceptedOnLine_of_ignored line hi, List.nil_append]
    | false =>
      simp only [Bool.not_false, if_true, List.flatMap_cons, ih]

theorem acceptedFields_eq_candidates (text : GoString) :
    acceptedFields text = (candidateLines text).flatMap acceptedOnLine := by
  unfold acceptedFields candidateLines
  rw [flatMap_acceptedOnLine_filter]

/-- C14, as the code has it: two texts that are both read without error (no read fault and
no line that reaches the buffer of the scanner) and differ only in lines whose first field
is not exactly `0.0.0.0` give the same Domain Set and the same result of
`processHostsFile`. -/
theorem processHostsFile_ignores_lines (contents₁ contents₂ : Reader) (source : GoString)
    (hosts : Hosts) (hread₁ : (scanLines contents₁).2 = none)
    (hread₂ : (scanLines contents₂).2 = none)
    (hsame : candidateLines contents₁.text = candidateLines contents₂.text) :
    processHostsFile contents₁ source hosts = processHostsFile contents₂ source hosts := by
  rw [processHostsFile_readable contents₁ source hosts hread₁,
    processHostsFile_readable contents₂ source hosts hread₂,
    acceptedFields_eq_candidates, acceptedFields_eq_candidates, hsame]

/-- Witness for C14: a comment line, a `127.0.0.1` line and a blank line added around one
`0.0.0.0` line. -/
theorem processHostsFile_ignores_lines_witness :
    processHostsFile ⟨"0.0.0.0 a.com\n".toList, none⟩ "src".toList ∅ =
      processHostsFile ⟨"# list\n127.0.0.1 b.com\n\n0.0.0.0 a.com\n#end".toList, none⟩
        "src".toList ∅ :=
  processHostsFile_ignores_lines ⟨"0.0.0.0 a.com\n".toList, none⟩
    ⟨"# list\n127.0.0.1 b.com\n\n0.0.0.0 a.com\n#end".toList, none⟩ "src".toList ∅
    (by decide) (by decide) (by decide)

theorem ignoredLine_longComment (n : Nat) : ignoredLine (longComment n) = true := by
  have h : scanWords (longComment n) = ['#'] :: splitWords [] (List.replicate n 'x') := by
    unfold scanWords longComment
    have h₁ : isSpace '#' = false := by decide
    have h₂ : isSpace ' ' = true := by decide
    rw [splitWords, h₁, splitWords, h₂]
    rfl
  unfold ignoredLine
  rw [h, List.head?_cons]
  decide

theorem scanLines_longComment_first (rest : GoString) :
    scanLines ⟨longComment 65536 ++ '\n' :: rest, none⟩ = ([], some errTooLong) := by
  unfold scanLines
  simp only
  rw [splitLines_append_newline _ _ _ (newline_not_mem_longComment _), List.reverse_nil,
    List.nil_append, List.takeWhile_cons, longComment_not_fit]
  simp

/-- C14 fails as stated: a comment line of 65538 bytes added in front of the text
`0.0.0.0 a.com` is a line whose first field is not `0.0.0.0`, yet with it
`processHostsFile` fails with `bufio.Scanner: token too long` and the Domain Set stays
empty, while the text without it succeeds and adds `a.com`. -/
theorem processHostsFile_long_line_not_ignored :
    ignoredLine (longComment 65536) = true ∧
      splitLines [] (longComment 65536 ++ '\n' :: "0.0.0.0 a.com\n".toList) =
        longComment 65536 :: splitLines [] "0.0.0.0 a.com\n".toList ∧
      processHostsFile ⟨"0.0.0.0 a.com\n".toList, none⟩ "src".toList ∅ =
        some ({"a.com".toList}, none) ∧
      processHostsFile ⟨longComment 65536 ++ '\n' :: "0.0.0.0 a.com\n".toList, none⟩
          "src".toList ∅ =
        some (∅, some ("error reading hosts: ".toList ++ errTooLong)) := by
  refine ⟨ignoredLine_longComment _, ?_, by decide, ?_⟩
  · rw [splitLines_append_newline _ _ _ (newline_not_mem_longComment _)]
    rfl
  · rw [processHostsFile_eq, scanLines_longComment_first]
    rfl

/-! ## Repeated runs of the parser -/

/-- C15: `processHostsFile` on the same text a second time leaves the Domain Set exactly
as the first call left it, whatever the text and the set before the first call, and
returns what the first call returned. -/
theorem processHostsFile_idempotent (contents : Reader) (source : GoString) (hosts : Hosts) :
    ∃ hosts' err, processHostsFile contents source hosts = some (hosts', err) ∧
      processHostsFile contents source hosts' = some (hosts', err) := by
  refine ⟨_, _, processHostsFile_eq contents source hosts, ?_⟩
  rw [processHostsFile_eq, Finset.union_assoc, Finset.union_self]

/-! ## Empty tokens -/

/-- C16: every field the whitespace splitting of a line produces is non-empty, no line
makes an iteration of the outer loop panic on `host[0]`, and `processHostsFile` returns on
every input. -/
theorem processHostsFile_no_panic :
    (∀ line : GoString, ∀ field ∈ scanWords line, field ≠ []) ∧
      (∀ (line : GoString) (st : Hosts × Nat), processLine line st ≠ none) ∧
      (∀ (contents : Reader) (source : GoString) (hosts : Hosts),
        processHostsFile contents source hosts ≠ none) := by
  refine ⟨scanWords_ne_nil, fun line st => ?_, fun contents source hosts => ?_⟩
  · obtain ⟨hosts, n⟩ := st
    rw [processLine_eq]
    exact Option.some_ne_none _
  · rw [processHostsFile_eq]
    exact Option.some_ne_none _

/-! ## The comparator on equal names -/

theorem less_self (a : GoString) : less a a = true := by
  rw [less_eq, labelsLt_strictTotal.irrefl]
  rfl

/-- C17, as the code has it: the comparator of `writeHosts` is not irreflexive, it orders
every host name before itself (when both label lists are used up the loop ends and
`leftIndex < 1` is true).  On two distinct names it is asymmetric, and two entries at
different positions of a slice without repetitions, which is all `sort.Slice` compares on
the keys of a map, are distinct names. -/
theorem less_reflexive_asymmetric_on_distinct :
    (∀ a : GoString, less a a = true) ∧
      (∀ a b : GoString, a ≠ b → less a b = true → less b a = false) ∧
      (∀ (keys : List GoString) (i j : Nat) (x y : GoString), keys.Nodup → i ≠ j →
        keys[i]? = some x → keys[j]? = some y → x ≠ y ∧ less x y = !less y x) := by
  refine ⟨less_self, fun a b hne hab => ?_, fun keys i j x y hnodup hij hx hy => ?_⟩
  · have h := less_of_ne a b hne
    rw [hab] at h
    cases hba : less b a with
    | false => rfl
    | true => rw [hba] at h; cases h
  · obtain ⟨hi, hxe⟩ := List.getElem?_eq_some_iff.1 hx
    obtain ⟨hj, hye⟩ := List.getElem?_eq_some_iff.1 hy
    have hne : x ≠ y := by
      intro e
      rw [← hxe, ← hye] at e
      exact hij ((hnodup.getElem_inj_iff).1 e)
    exact ⟨hne, less_of_ne x y hne⟩

/-- Witness for C17: two distinct names, and the two entries of a slice of two keys. -/
theorem less_reflexive_asymmetric_on_distinct_witness :
    less "b.example".toList "a.example".toList = false ∧
      ("b.example".toList ≠ "a.example".toList ∧
        less "b.example".toList "a.example".toList =
          !less "a.example".toList "b.example".toList) :=
  ⟨less_reflexive_asymmetric_on_distinct.2.1 "a.example".toList "b.example".toList
      (by decide) (by decide),
    less_reflexive_asymmetric_on_distinct.2.2
      ["b.example".toList, "a.example".toList] 0 1 "b.example".toList "a.example".toList
      (by decide) (by decide) (by decide) (by decide)⟩

/-- C17 fails as stated: the comparator orders `example.com` before itself. -/
theorem less_self_example : less "example.com".toList "example.com".toList = true := by
  decide

/-! ## The accumulator after the zero-hosts error -/

/-- C18: whenever `processHostsFile` returns the error `did not find any hosts`, the
Domain Set is what it was before the call. -/
theorem processHostsFile_no_hosts_frame (contents : Reader) (source : GoString)
    (hosts hosts' : Hosts)
    (h : processHostsFile contents source hosts = some (hosts', some errNoHosts)) :
    hosts' = hosts := by
  rw [processHostsFile_eq] at h
  simp only [Option.some.injEq, Prod.mk.injEq] at h
  obtain ⟨hset, herr⟩ := h
  cases hread : (scanLines contents).2 with
  | some e =>
    rw [hread] at herr
    simp only [Option.some.injEq] at herr
    have hhead := congrArg List.head? herr
    rw [show "error reading hosts: ".toList = 'e' :: "rror reading hosts: ".toList from rfl,
      List.cons_append, List.head?_cons] at hhead
    exact absurd hhead (by decide)
  | none =>
    rw [hread] at herr
    simp only at herr
    split at herr
    · rename_i hzero
      rw [List.length_eq_zero.1 hzero] at hset
      rw [← hset]
      simp
    · cases herr

/-- Witness for C18: a text without accepted field, parsed into a Domain Set that holds
one name. -/
theorem processHostsFile_no_hosts_frame_witness :
    processHostsFile
          ⟨"# nothing here\n127.0.0.1 b.com\n0.0.0.0 1.2.3.4 x.001com # c.com".toList, none⟩
          "src".toList {"a.com".toList} =
        some ({"a.com".toList}, some errNoHosts) ∧
      ({"a.com".toList} : Hosts) = {"a.com".toList} :=
  ⟨by decide,
    processHostsFile_no_hosts_frame
      ⟨"# nothing here\n127.0.0.1 b.com\n0.0.0.0 1.2.3.4 x.001com # c.com".toList, none⟩
      "src".toList {"a.com".toList} {"a.com".toList} (by decide)⟩

end HostsFile
